import Mathlib

/-!
# avifconv: the parallel batch engine, its statistics and its progress bar

A shallow embedding of `image_process.go`, `command.go` and
`logger/progressbar.go`.

* Go `int64` (and `int`, taken as 64 bits wide) values are mathematical
  integers; every arithmetic result is passed through `wrapInt64`.
* A critical section guarded by `stats.mu` (or by the bar's own `mu`) is one
  atomic step of the pool: that is what the mutex provides.
* Goroutines are actors of a step function `step`; a run is a list of actors
  (the scheduler's choices), executed by `exec`.
* A `float64` is the rational number it stands for; every arithmetic result
  is passed through `roundFloat64`. A panic ends the program: the pool records
  it and takes no further step.
-/

namespace Avifconv

/-! ## Machine integers -/

/-- Two's complement wraparound of a mathematical integer into the range of a
Go `int64`. -/
def wrapInt64 (x : Int) : Int := (x + 2 ^ 63) % 2 ^ 64 - 2 ^ 63

/-- The largest `int64`. -/
def maxInt64 : Int := 2 ^ 63 - 1

/-! ## `image_process.go`: data -/

/-- A job is a file path. -/
abbrev Job := String

/-- The counters of `ProcessStats` (the mutex is what makes `workerCritical`
atomic and has no field here). -/
structure ProcessStats where
  TotalOriginalSize : Int := 0
  TotalCompressedSize : Int := 0
  TotalFiles : Int := 0
  ProcessedFiles : Int := 0
  SuccessfulFiles : Int := 0
  FailedFiles : Int := 0
deriving DecidableEq, Repr

/-- The three results of `processFileWithStats`: `(origSize, compSize, err)`,
with `err = none` for Go's `nil`. -/
structure Outcome where
  origSize : Int
  compSize : Int
  err : Option String
deriving DecidableEq, Repr

/-- The outside world as `processFileWithStats` sees it for one file: the
result of each fallible call it makes, in source order. -/
structure FileSys where
  stat : Job → Except String Int
  openFile : Job → Except String Unit
  decode : Job → Except String Unit
  createTemp : Job → Except String Unit
  encode : Job → Except String Unit
  statTemp : Job → Except String Int
  remove : Job → Except String Unit
  rename : Job → Except String Unit

/-- The method `Processor.processFileWithStats`: every early return of the source, with
the sizes it returns next to the error. -/
def processFileWithStats (fs : FileSys) (filePath : Job) : Outcome :=
  match fs.stat filePath with
  | .error e => ⟨0, 0, some ("failed to get file info: " ++ e)⟩
  | .ok originalSize =>
    match fs.openFile filePath with
    | .error e => ⟨originalSize, 0, some ("error opening file: " ++ e)⟩
    | .ok _ =>
      match fs.decode filePath with
      | .error e => ⟨originalSize, 0, some ("error decoding image: " ++ e)⟩
      | .ok _ =>
        match fs.createTemp filePath with
        | .error e => ⟨originalSize, 0, some ("error creating temporary file: " ++ e)⟩
        | .ok _ =>
          match fs.encode filePath with
          | .error e => ⟨originalSize, 0, some ("error encoding to AVIF: " ++ e)⟩
          | .ok _ =>
            match fs.statTemp filePath with
            | .error e =>
              ⟨originalSize, 0, some ("failed to get compressed file info: " ++ e)⟩
            | .ok compressedSize =>
              match fs.remove filePath with
              | .error e =>
                ⟨originalSize, compressedSize, some ("error deleting original file: " ++ e)⟩
              | .ok _ =>
                match fs.rename filePath with
                | .error e =>
                  ⟨originalSize, compressedSize, some ("error renaming file: " ++ e)⟩
                | .ok _ => ⟨originalSize, compressedSize, none⟩

/-- The statistics part of the second critical section of `Processor.worker`
(between `stats.mu.Lock()` and `stats.mu.Unlock()` after the per-file call):
`ProcessedFiles++`, then `FailedFiles++` on an error, else `SuccessfulFiles++`
and both byte totals grow. -/
def workerCritical (stats : ProcessStats) (o : Outcome) : ProcessStats :=
  let stats := { stats with ProcessedFiles := wrapInt64 (stats.ProcessedFiles + 1) }
  match o.err with
  | some _ => { stats with FailedFiles := wrapInt64 (stats.FailedFiles + 1) }
  | none =>
    { stats with
      SuccessfulFiles := wrapInt64 (stats.SuccessfulFiles + 1)
      TotalOriginalSize := wrapInt64 (stats.TotalOriginalSize + o.origSize)
      TotalCompressedSize := wrapInt64 (stats.TotalCompressedSize + o.compSize) }

/-- The statistics after the critical sections of the given outcomes have run
one after the other, in list order. -/
def applyOutcomes (stats : ProcessStats) (os : List Outcome) : ProcessStats :=
  os.foldl workerCritical stats

/-- The fields of `Processor` that steer the pool. -/
structure Processor where
  NumWorkers : Int
  QueueSize : Int
deriving DecidableEq, Repr

/-- The first four lines of `processFilesParallel`: the capacity handed to
`make(chan string, queueSize)`. -/
def queueSize (p : Processor) (files : List Job) : Int :=
  if p.QueueSize > (files.length : Int) then (files.length : Int) else p.QueueSize

/-! ## `logger/progressbar.go` -/

/-- The fields of `ProgressBar` that its operations read or write. -/
structure ProgressBar where
  total : Int
  current : Int := 0
  width : Int := 50
  complete : Bool := false
deriving DecidableEq, Repr

/-- What the bar writes to standard output: one bar line (with the `current`
and `total` it was drawn from) or the closing newline. -/
inductive BarOutput where
  | line (current total : Int)
  | newline
deriving DecidableEq, Repr

/-- The constructor `NewProgressBar`: `current` starts at 0, the width is 50. -/
def NewProgressBar (total : Int) : ProgressBar :=
  { total := total, width := 50 }

/-! ### `float64` arithmetic, as far as `render` uses it -/

/-- The nearest integer, a tie going to the even one. -/
def roundHalfEven (x : ℚ) : ℤ :=
  if x - ⌊x⌋ < 1 / 2 then ⌊x⌋
  else if 1 / 2 < x - ⌊x⌋ then ⌊x⌋ + 1
  else if ⌊x⌋ % 2 = 0 then ⌊x⌋ else ⌊x⌋ + 1

/-- The nearest `float64` of a number, ties to even: the number is scaled so
that its magnitude lies in `[2 ^ 52, 2 ^ 53)`, rounded to an integer and
scaled back, which leaves 53 significant binary digits. The exponent is not
bounded here: what `render` computes from `int64` operands is zero or has a
magnitude between `2 ^ (-64)` and `2 ^ 70`, far from overflow and from the
subnormal numbers. -/
def roundFloat64 (q : ℚ) : ℚ :=
  if q = 0 then 0
  else (roundHalfEven (q / 2 ^ (Int.log 2 |q| - 52)) : ℚ) * 2 ^ (Int.log 2 |q| - 52)

/-- Truncation toward zero. -/
def truncate (q : ℚ) : Int := if 0 ≤ q then ⌊q⌋ else ⌈q⌉

/-- The conversion `int(x)` of a finite `float64`: truncation toward zero.
Go leaves the result to the implementation when the value does not fit; it is
taken as on amd64, where the conversion instruction then answers `-2 ^ 63`. -/
def float64ToInt (q : ℚ) : Int :=
  if -(2 : ℚ) ^ 63 ≤ q ∧ q < 2 ^ 63 then truncate q else -2 ^ 63

/-- The Go expression `int(float64(width) * float64(current) /
float64(total))`. A zero `total` makes the quotient a NaN or an infinity,
which converts like a value that does not fit. -/
def filledFloat (width current total : Int) : Int :=
  if total = 0 then -2 ^ 63
  else float64ToInt (roundFloat64
    (roundFloat64 (roundFloat64 width * roundFloat64 current) / roundFloat64 total))

/-- The local `filled` of `ProgressBar.render`:
`int(float64(p.width) * float64(p.current) / float64(p.total))`, that is
`filledFloat p.width p.current p.total` (theorem
`ProgressBar.filled_eq_filledFloat`). On operands and a product of magnitude
below `2 ^ 53` no rounding can change the truncated quotient (theorem
`filledFloat_small`), and the value is computed in integers. -/
def ProgressBar.filled (p : ProgressBar) : Int :=
  if p.total ≠ 0 ∧ p.width.natAbs < 2 ^ 53 ∧ p.current.natAbs < 2 ^ 53 ∧
      p.total.natAbs < 2 ^ 53 ∧ (p.width * p.current).natAbs < 2 ^ 53 then
    Int.tdiv (p.width * p.current) p.total
  else filledFloat p.width p.current p.total

/-- The two counts `render` hands to `strings.Repeat`: `filled` and
`p.width - filled`. -/
def ProgressBar.repeatCounts (p : ProgressBar) : Int × Int :=
  (p.filled, wrapInt64 (p.width - p.filled))

/-- The method `ProgressBar.render`: nothing once the bar is complete; else the
bar line is built, and `strings.Repeat` panics on a negative count, before
anything is written. (A first count above the width comes with a negative
second count; the call does not return then either, whatever `strings.Repeat`
makes of a very large first count.) The line is kept as the pair it is drawn
from; the percentage and the remaining time of the source, which cannot
panic, are not computed, and an error of the write to standard output is
dropped as in the source. -/
def ProgressBar.render (p : ProgressBar) : Except String (List BarOutput) :=
  if p.complete then .ok []
  else if p.repeatCounts.1 < 0 ∨ p.repeatCounts.2 < 0 then
    .error "strings: negative Repeat count"
  else .ok [BarOutput.line p.current p.total]

/-- Whether `render` panics. -/
def ProgressBar.renderPanics (p : ProgressBar) : Bool :=
  match p.render with
  | .error _ => true
  | .ok _ => false

/-- The method `ProgressBar.Increment`: add, clamp to `total`, render. The bar as
the call leaves it, and what the call wrote or the panic it ended in. -/
def ProgressBar.Increment (p : ProgressBar) (amount : Int) :
    ProgressBar × Except String (List BarOutput) :=
  let p := { p with current := wrapInt64 (p.current + amount) }
  let p := if p.current > p.total then { p with current := p.total } else p
  (p, p.render)

/-- The method `ProgressBar.Set`: assign, clamp to `total`, render. -/
def ProgressBar.Set (p : ProgressBar) (value : Int) :
    ProgressBar × Except String (List BarOutput) :=
  let p := { p with current := value }
  let p := if p.current > p.total then { p with current := p.total } else p
  (p, p.render)

/-- The method `ProgressBar.Complete`: nothing on a complete bar; else `current`
becomes `total` and the bar is rendered; when `render` returns, the bar is
marked complete and a newline follows; when it panics, the flag stays unset
and nothing is written. -/
def ProgressBar.Complete (p : ProgressBar) : ProgressBar × Except String (List BarOutput) :=
  if p.complete then (p, .ok [])
  else
    let p := { p with current := p.total }
    match p.render with
    | .error e => (p, .error e)
    | .ok out => ({ p with complete := true }, .ok (out ++ [BarOutput.newline]))

/-- One call on the bar. -/
inductive BarOp where
  | increment (n : Int)
  | set (value : Int)
  | complete
deriving DecidableEq, Repr

/-- The bar after one call. -/
def ProgressBar.apply (p : ProgressBar) : BarOp → ProgressBar
  | .increment n => (p.Increment n).1
  | .set v => (p.Set v).1
  | .complete => p.Complete.1

/-- The bar after a sequence of calls (a caller that recovers from a panic
finds the bar as the panicking call left it, and goes on). -/
def ProgressBar.applyAll (p : ProgressBar) (ops : List BarOp) : ProgressBar :=
  ops.foldl ProgressBar.apply p

/-- What one call wrote, or the panic it ended in. -/
def ProgressBar.result (p : ProgressBar) : BarOp → Except String (List BarOutput)
  | .increment n => (p.Increment n).2
  | .set v => (p.Set v).2
  | .complete => p.Complete.2

/-- A sequence of calls, up to the first panic: the bar at the end and all
that was written, or that panic. -/
def ProgressBar.runAll (p : ProgressBar) : List BarOp →
    Except String (ProgressBar × List BarOutput)
  | [] => .ok (p, [])
  | op :: ops =>
    match p.result op with
    | .error e => .error e
    | .ok out =>
      match (p.apply op).runAll ops with
      | .error e => .error e
      | .ok r => .ok (r.1, out ++ r.2)

/-- The argument of a call is an `int64`. -/
def BarOp.isInt64 : BarOp → Prop
  | .increment n => -(2 : Int) ^ 63 ≤ n ∧ n ≤ maxInt64
  | .set v => -(2 : Int) ^ 63 ≤ v ∧ v ≤ maxInt64
  | .complete => True

/-! ## `command.go` -/

/-- The struct `Config`. -/
structure Config where
  InputPath : String := ""
  Version : String := ""
  Workers : Int := 0
  Quality : Int := 0
  QualityAlpha : Int := 0
  Speed : Int := 0
  QueueSize : Int := 0
deriving DecidableEq, Repr

/-- The package variable `QueueRatio`. -/
def QueueRatio : Int := 3

/-- The package variable `Version`. -/
def Version : String := "dev"

/-- What `flag.Parse()` found on the command line: the value of each option
that was given (`none`: the option is absent and keeps its default), the
`-version` switch and the positional arguments. -/
structure CommandLine where
  workers : Option Int := none
  quality : Option Int := none
  qualityAlpha : Option Int := none
  speed : Option Int := none
  showVersion : Bool := false
  args : List String := []

/-- How `ParseConfig` ends: `os.Exit(0)` after the version box, an error, or a
configuration. -/
inductive ParseResult where
  | exit (code : Int)
  | error (msg : String)
  | ok (cfg : Config)
deriving DecidableEq, Repr

/-- The method `Config.validate`: the error message, or `none` for `nil`. -/
def Config.validate (cfg : Config) : Option String :=
  if cfg.Quality < 0 ∨ cfg.Quality > 100 then
    some "error: quality must be in range 0-100"
  else if cfg.QualityAlpha < 0 ∨ cfg.QualityAlpha > 100 then
    some "error: alpha quality must be in range 0-100"
  else if cfg.Speed < 0 ∨ cfg.Speed > 10 then
    some "error: encoding speed must be in range 0-10"
  else none

/-- The function `ParseConfig`, given `runtime.NumCPU()`, the result of `os.Stat` on a path
(`none`: no error) and the parsed command line. The queue size is fixed from
the CPU count before the flags are read. -/
def ParseConfig (cpu : Int) (statErr : String → Option String) (cl : CommandLine) :
    ParseResult :=
  let cfg : Config := { Version := Version, QueueSize := wrapInt64 (cpu * QueueRatio) }
  let cfg : Config :=
    { cfg with
      Workers := cl.workers.getD cpu
      Quality := cl.quality.getD 80
      QualityAlpha := cl.qualityAlpha.getD 80
      Speed := cl.speed.getD 6 }
  if cl.showVersion then .exit 0
  else
    match cl.args with
    | [] => .error "no input path specified"
    | arg0 :: _ =>
      match cfg.validate with
      | some e => .error e
      | none =>
        let cfg := { cfg with InputPath := arg0 }
        match statErr cfg.InputPath with
        | some e => .error ("error: " ++ e)
        | none => .ok cfg

/-- The function `NewProcessor`: the worker count and the queue size come from the
configuration unchanged. -/
def NewProcessor (cfg : Config) : Processor :=
  { NumWorkers := cfg.Workers, QueueSize := cfg.QueueSize }

/-! ## `image_process.go`: the pool -/

/-- Where a worker goroutine stands. -/
inductive WorkerPc where
  /-- At `for filePath := range jobs`, waiting to receive. -/
  | idle
  /-- Holding a received `filePath`, before the `select` on `ctx.Done()`. -/
  | got (filePath : Job)
  /-- Past the `default` branch: status set, inside `processFileWithStats`. -/
  | busy (filePath : Job)
  /-- Returned; its deferred `wg.Done()` has run. -/
  | exited
deriving DecidableEq, Repr

/-- Where the goroutine that called `processFilesParallel` stands. -/
inductive MainPc where
  /-- At `wg.Wait()`. -/
  | waiting
  /-- Past `wg.Wait()`, before `bar.Complete()`. -/
  | completing
  /-- Returned to the caller. -/
  | returned
deriving DecidableEq, Repr

/-- The channel `jobs`: its buffer (oldest first), its capacity and whether
`close(jobs)` has run. -/
structure Chan where
  buf : List Job := []
  cap : Nat
  closed : Bool := false
deriving DecidableEq, Repr

/-- The producer goroutine: the files its loop has not yet published, and
whether it is still running. -/
structure Producer where
  remaining : List Job
  running : Bool := true
deriving DecidableEq, Repr

/-- The state of one batch run. `calls`, `finished` and `dropped` are history
variables: the files `processFileWithStats` was invoked on, the files whose
completion was recorded, and the files a worker received and abandoned on
cancellation. `panicked` holds the panic that has ended the program, if any. -/
structure PoolState where
  stats : ProcessStats
  bar : ProgressBar
  out : List BarOutput := []
  jobs : Chan
  producer : Producer
  workers : List WorkerPc
  main : MainPc := .waiting
  cancelled : Bool := false
  calls : List Job := []
  finished : List Job := []
  dropped : List Job := []
  panicked : Option String := none
deriving DecidableEq, Repr

/-- Who takes the next step. -/
inductive Actor where
  /-- The producer takes the `jobs <- file` case, or runs `close(jobs)` after
  its loop. -/
  | producer
  /-- The producer takes the `<-ctx.Done()` case and returns. -/
  | producerDone
  /-- Worker `w` takes its next step. -/
  | worker (w : Nat)
  /-- The calling goroutine takes its next step. -/
  | main
  /-- Somebody calls `cancel()`. -/
  | cancel
deriving DecidableEq, Repr

/-- A worker that has returned. -/
def WorkerPc.isExited : WorkerPc → Bool
  | .exited => true
  | _ => false

/-- One step of the producer on the send or close path. A send needs room in
the buffer; on an unbuffered channel it only happens as a rendezvous, which is
a step of the receiving worker. -/
def stepProducer (s : PoolState) : Option PoolState :=
  if s.producer.running then
    match s.producer.remaining with
    | [] =>
      some { s with jobs := { s.jobs with closed := true },
                    producer := { s.producer with running := false } }
    | file :: rest =>
      if s.jobs.buf.length < s.jobs.cap then
        some { s with jobs := { s.jobs with buf := s.jobs.buf ++ [file] },
                      producer := { s.producer with remaining := rest } }
      else none
  else none

/-- The producer observes `ctx.Done()` inside its loop and returns; the
statement `close(jobs)` after the loop is not reached. -/
def stepProducerDone (s : PoolState) : Option PoolState :=
  if s.producer.running ∧ s.cancelled then
    match s.producer.remaining with
    | [] => none
    | _ :: _ => some { s with producer := { s.producer with running := false } }
  else none

/-- One step of worker `w`: receive (or leave the loop on a closed and drained
channel), check cancellation, or finish the file it is processing and record
the outcome under the lock, `bar.Increment(1)` included. The worker's private
`workerStatus` is its place in `WorkerPc`; the error line a failure writes to
the console is not kept. When `bar.Increment(1)` panics the counters have
been updated already and the program ends there. -/
def stepWorker (process : Job → Outcome) (s : PoolState) (w : Nat) : Option PoolState :=
  match s.workers[w]? with
  | none => none
  | some .exited => none
  | some .idle =>
    match s.jobs.buf with
    | file :: rest =>
      some { s with jobs := { s.jobs with buf := rest },
                    workers := s.workers.set w (.got file) }
    | [] =>
      if s.jobs.closed then some { s with workers := s.workers.set w .exited }
      else if s.jobs.cap = 0 ∧ s.producer.running then
        match s.producer.remaining with
        | file :: rest =>
          some { s with producer := { s.producer with remaining := rest },
                        workers := s.workers.set w (.got file) }
        | [] => none
      else none
  | some (.got file) =>
    if s.cancelled then
      some { s with workers := s.workers.set w .exited, dropped := s.dropped ++ [file] }
    else
      some { s with workers := s.workers.set w (.busy file), calls := s.calls ++ [file] }
  | some (.busy file) =>
    match (s.bar.Increment 1).2 with
    | .ok out =>
      some { s with stats := workerCritical s.stats (process file),
                    bar := (s.bar.Increment 1).1,
                    out := s.out ++ out,
                    workers := s.workers.set w .idle,
                    finished := s.finished ++ [file] }
    | .error e =>
      some { s with stats := workerCritical s.stats (process file),
                    bar := (s.bar.Increment 1).1,
                    workers := s.workers.set w .idle,
                    finished := s.finished ++ [file],
                    panicked := some e }

/-- One step of the calling goroutine: `wg.Wait()` returns once every worker
has returned, then `bar.Complete()` runs and the call returns; when
`bar.Complete()` panics, as it does on the bar of an empty list, the call
does not return. (The only caller, `ProcessDirectory`, returns before it
starts the pool when the list is empty.) -/
def stepMain (s : PoolState) : Option PoolState :=
  match s.main with
  | .waiting =>
    if s.workers.all WorkerPc.isExited then some { s with main := .completing } else none
  | .completing =>
    match s.bar.Complete.2 with
    | .ok out => some { s with bar := s.bar.Complete.1, out := s.out ++ out, main := .returned }
    | .error e => some { s with bar := s.bar.Complete.1, panicked := some e }
  | .returned => none

/-- One step of the pool by the given actor; `none` when that actor is
blocked or has finished, and for every actor once the program has panicked. -/
def step (process : Job → Outcome) (s : PoolState) (a : Actor) : Option PoolState :=
  match s.panicked with
  | some _ => none
  | none =>
    match a with
    | .producer => stepProducer s
    | .producerDone => stepProducerDone s
    | .worker w => stepWorker process s w
    | .main => stepMain s
    | .cancel => if s.cancelled then none else some { s with cancelled := true }

/-- The pool right after `processFilesParallel` has made the channel, the bar
and the wait group and has launched its goroutines: `numWorkers` idle workers,
the producer in front of the whole list, the caller at `wg.Wait()`. -/
def initState (numWorkers capacity : Nat) (files : List Job) (stats : ProcessStats)
    (ctxDone : Bool) : PoolState :=
  { stats := stats
    bar := NewProgressBar files.length
    jobs := { cap := capacity }
    producer := { remaining := files }
    workers := List.replicate numWorkers .idle
    cancelled := ctxDone }

/-- The set-up of `processFilesParallel`: `make(chan string, queueSize)` and
`make([]workerStatus, p.NumWorkers)` panic on a negative size. A panic is kept
as the text of its value. -/
def start (p : Processor) (files : List Job) (stats : ProcessStats) (ctxDone : Bool) :
    Except String PoolState :=
  if queueSize p files < 0 then .error "makechan: size out of range"
  else if p.NumWorkers < 0 then .error "runtime error: makeslice: len out of range"
  else .ok (initState p.NumWorkers.toNat (queueSize p files).toNat files stats ctxDone)

/-- The pool after the scheduler has offered the actors of `sched` a step one
after the other; an actor that cannot move is passed over. -/
def exec (process : Job → Outcome) (sched : List Actor) (s : PoolState) : PoolState :=
  sched.foldl (fun s a => (step process s a).getD s) s

/-- The method `Processor.processFilesParallel` under a schedule: the panic of the set-up,
or the pool the schedule leads to. `ctxDone` tells whether `ctx` is already
cancelled at the call. -/
def processFilesParallel (process : Job → Outcome) (p : Processor) (ctxDone : Bool)
    (files : List Job) (stats : ProcessStats) (sched : List Actor) :
    Except String PoolState :=
  (start p files stats ctxDone).map (exec process sched)

/-- Every actor of a pool of `numWorkers` workers except `cancel`. -/
def poolActors (numWorkers : Nat) : List Actor :=
  [Actor.producer, Actor.producerDone, Actor.main] ++
    (List.range numWorkers).map Actor.worker

/-- A schedule that runs a pool of `numWorkers` workers to its end when nobody
cancels: `rounds` rounds in which every actor is offered one step. -/
def roundRobin (numWorkers rounds : Nat) : List Actor :=
  (List.replicate rounds (poolActors numWorkers)).flatten

/-! ## Vocabulary of the statements -/

/-- The call succeeded: its `err` is `nil`. -/
def Outcome.succeeded (o : Outcome) : Bool := o.err.isNone

/-- How many of the outcomes are successes. -/
def succCount (os : List Outcome) : Nat := os.countP Outcome.succeeded

/-- How many of the outcomes are failures. -/
def failCount (os : List Outcome) : Nat := os.countP (fun o => !o.succeeded)

/-- The sum of `origSize` over the successful outcomes only. -/
def origSum (os : List Outcome) : Int :=
  ((os.filter Outcome.succeeded).map Outcome.origSize).sum

/-- The sum of `compSize` over the successful outcomes only. -/
def compSum (os : List Outcome) : Int :=
  ((os.filter Outcome.succeeded).map Outcome.compSize).sum

/-- An integer that a Go `int64` can hold. -/
def isInt64 (x : Int) : Prop := -(2 : Int) ^ 63 ≤ x ∧ x ≤ maxInt64

/-- Every counter holds an `int64` value, as every Go value of the type does. -/
def ProcessStats.inRange (s : ProcessStats) : Prop :=
  isInt64 s.TotalOriginalSize ∧ isInt64 s.TotalCompressedSize ∧ isInt64 s.TotalFiles ∧
    isInt64 s.ProcessedFiles ∧ isInt64 s.SuccessfulFiles ∧ isInt64 s.FailedFiles

/-- The argument of a call cannot take `current` below zero on a bar of the
given total: a `Set` value is not negative, an `Increment` amount is not
negative and leaves room for `total` below the largest `int64`, so that
`current + amount` does not wrap. -/
def BarOp.nonNeg (total : Int) : BarOp → Prop
  | .increment n => 0 ≤ n ∧ n ≤ maxInt64 - total
  | .set v => 0 ≤ v
  | .complete => True

/-- The call cannot take `current` backwards from where the bar stands: an
`Increment` amount is not negative and `current + amount` does not wrap, a
`Set` value is not below `current`. -/
def BarOp.forward (p : ProgressBar) : BarOp → Prop
  | .increment n => 0 ≤ n ∧ p.current + n ≤ maxInt64
  | .set v => p.current ≤ v
  | .complete => True

/-! ## The steps of the pool, one rule per source statement -/

/-- The steps of `step`, spelled out one by one: `Trans process s a t` holds
when actor `a` can take the pool from `s` to `t`. -/
inductive Trans (process : Job → Outcome) : PoolState → Actor → PoolState → Prop where
  /-- The `close(jobs)` after the producer's loop. -/
  | close (s : PoolState) (hrun : s.producer.running = true)
      (hrem : s.producer.remaining = [])
      (hp : s.panicked = none) :
      Trans process s .producer
        { s with jobs := { s.jobs with closed := true },
                 producer := { s.producer with running := false } }
  /-- The send `jobs <- file` into a buffer with room. -/
  | send (s : PoolState) (file : Job) (rest : List Job) (hrun : s.producer.running = true)
      (hrem : s.producer.remaining = file :: rest) (hroom : s.jobs.buf.length < s.jobs.cap)
      (hp : s.panicked = none) :
      Trans process s .producer
        { s with jobs := { s.jobs with buf := s.jobs.buf ++ [file] },
                 producer := { s.producer with remaining := rest } }
  /-- The producer's `case <-ctx.Done(): return`. -/
  | producerDone (s : PoolState) (file : Job) (rest : List Job)
      (hrun : s.producer.running = true) (hc : s.cancelled = true)
      (hrem : s.producer.remaining = file :: rest)
      (hp : s.panicked = none) :
      Trans process s .producerDone { s with producer := { s.producer with running := false } }
  /-- A worker receives the oldest buffered job. -/
  | recv (s : PoolState) (w : Nat) (file : Job) (rest : List Job)
      (hw : s.workers[w]? = some .idle) (hbuf : s.jobs.buf = file :: rest)
      (hp : s.panicked = none) :
      Trans process s (.worker w)
        { s with jobs := { s.jobs with buf := rest },
                 workers := s.workers.set w (.got file) }
  /-- A worker leaves `range jobs`: the channel is closed and drained. -/
  | leave (s : PoolState) (w : Nat) (hw : s.workers[w]? = some .idle)
      (hbuf : s.jobs.buf = []) (hclosed : s.jobs.closed = true)
      (hp : s.panicked = none) :
      Trans process s (.worker w) { s with workers := s.workers.set w .exited }
  /-- On an unbuffered channel the send and the receive happen together. -/
  | rendezvous (s : PoolState) (w : Nat) (file : Job) (rest : List Job)
      (hw : s.workers[w]? = some .idle) (hbuf : s.jobs.buf = [])
      (hopen : s.jobs.closed = false) (hcap : s.jobs.cap = 0)
      (hrun : s.producer.running = true) (hrem : s.producer.remaining = file :: rest)
      (hp : s.panicked = none) :
      Trans process s (.worker w)
        { s with producer := { s.producer with remaining := rest },
                 workers := s.workers.set w (.got file) }
  /-- The worker's `case <-ctx.Done(): return`. -/
  | abandon (s : PoolState) (w : Nat) (file : Job) (hw : s.workers[w]? = some (.got file))
      (hc : s.cancelled = true)
      (hp : s.panicked = none) :
      Trans process s (.worker w)
        { s with workers := s.workers.set w .exited, dropped := s.dropped ++ [file] }
  /-- The worker's `default:` branch up to the call of `processFileWithStats`. -/
  | start (s : PoolState) (w : Nat) (file : Job) (hw : s.workers[w]? = some (.got file))
      (hc : s.cancelled = false)
      (hp : s.panicked = none) :
      Trans process s (.worker w)
        { s with workers := s.workers.set w (.busy file), calls := s.calls ++ [file] }
  /-- The call returns and the worker records its outcome under the lock. -/
  | finish (s : PoolState) (w : Nat) (file : Job) (hw : s.workers[w]? = some (.busy file))
      (out : List BarOutput) (hok : (s.bar.Increment 1).2 = .ok out)
      (hp : s.panicked = none) :
      Trans process s (.worker w)
        { s with stats := workerCritical s.stats (process file),
                 bar := (s.bar.Increment 1).1,
                 out := s.out ++ out,
                 workers := s.workers.set w .idle,
                 finished := s.finished ++ [file] }
  /-- The worker records the outcome and `bar.Increment(1)` panics. -/
  | finishPanic (s : PoolState) (w : Nat) (file : Job)
      (hw : s.workers[w]? = some (.busy file))
      (e : String) (herr : (s.bar.Increment 1).2 = .error e)
      (hp : s.panicked = none) :
      Trans process s (.worker w)
        { s with stats := workerCritical s.stats (process file),
                 bar := (s.bar.Increment 1).1,
                 workers := s.workers.set w .idle,
                 finished := s.finished ++ [file],
                 panicked := some e }
  /-- The call `wg.Wait()` returns. -/
  | waited (s : PoolState) (hm : s.main = .waiting)
      (hall : s.workers.all WorkerPc.isExited = true)
      (hp : s.panicked = none) :
      Trans process s .main { s with main := .completing }
  /-- The call `bar.Complete()` and the return. -/
  | complete (s : PoolState) (hm : s.main = .completing)
      (out : List BarOutput) (hok : s.bar.Complete.2 = .ok out)
      (hp : s.panicked = none) :
      Trans process s .main
        { s with bar := s.bar.Complete.1, out := s.out ++ out, main := .returned }
  /-- The call `bar.Complete()` panics: no return. -/
  | completePanic (s : PoolState) (hm : s.main = .completing)
      (e : String) (herr : s.bar.Complete.2 = .error e)
      (hp : s.panicked = none) :
      Trans process s .main { s with bar := s.bar.Complete.1, panicked := some e }
  /-- The call `cancel()`. -/
  | cancel (s : PoolState) (hc : s.cancelled = false)
      (hp : s.panicked = none) :
      Trans process s .cancel { s with cancelled := true }

/-- The steps a worker in the given place still has before it has returned, at
most. -/
def WorkerPc.weight : WorkerPc → Nat
  | .idle => 1
  | .got _ => 3
  | .busy _ => 2
  | .exited => 0

/-- The steps the caller still has before it has returned. -/
def MainPc.weight : MainPc → Nat
  | .waiting => 2
  | .completing => 1
  | .returned => 0

/-- A bound on the number of steps the pool can still take: every step makes
it smaller, and after a panic there is none. -/
def measure (s : PoolState) : Nat :=
  if s.panicked.isSome then 0
  else
    (if s.producer.running then 4 * s.producer.remaining.length + 1 else 0) +
      3 * s.jobs.buf.length + (s.workers.map WorkerPc.weight).sum + s.main.weight +
      (if s.cancelled then 0 else 1)

/-- The file a worker holds, if any. -/
def WorkerPc.holding : WorkerPc → Multiset Job
  | .got file => {file}
  | .busy file => {file}
  | _ => 0

/-- The files the workers hold. -/
def inFlight (ws : List WorkerPc) : Multiset Job := (ws.map WorkerPc.holding).sum

/-- What holds in every state of a run of `numWorkers` workers on `files`
that started from the statistics `stats0`. -/
structure Inv (process : Job → Outcome) (numWorkers : Nat) (files : List Job)
    (stats0 : ProcessStats) (s : PoolState) : Prop where
  /-- Every file is in exactly one place. -/
  conserve : (s.finished : Multiset Job) + inFlight s.workers + (s.jobs.buf : Multiset Job) +
      (s.producer.remaining : Multiset Job) + (s.dropped : Multiset Job) = (files : Multiset Job)
  /-- The statistics are those of the recorded completions, in their order. -/
  recorded : s.stats = applyOutcomes stats0 (s.finished.map process)
  /-- The number of workers is fixed. -/
  size : s.workers.length = numWorkers
  /-- Without cancellation no job is abandoned. -/
  kept : s.cancelled = false → s.dropped = []
  /-- Without cancellation the producer only stops by closing the channel. -/
  stopped : s.cancelled = false → s.producer.running = false → s.jobs.closed = true
  /-- The channel is closed after the last file only. -/
  closedLast : s.jobs.closed = true → s.producer.remaining = [] ∧ s.producer.running = false
  /-- Without cancellation a worker only returns from a closed, drained
  channel. -/
  drained : s.cancelled = false → WorkerPc.exited ∈ s.workers →
    s.jobs.closed = true ∧ s.jobs.buf = []
  /-- The caller passes `wg.Wait()` only after every worker has returned. -/
  joined : s.main ≠ .waiting → ∀ pc ∈ s.workers, pc = WorkerPc.exited

/-- What holds of the bar and of panics in every state of a run on `files`. -/
structure BarInv (files : List Job) (s : PoolState) : Prop where
  /-- The bar is the one made for the list. -/
  barShape : s.bar.total = files.length ∧ s.bar.width = 50
  /-- The bar is marked complete by the caller's last step only. -/
  fresh : s.main ≠ .returned → s.bar.complete = false
  /-- A call that has returned has not panicked. -/
  alive : s.main = .returned → s.panicked = none
  /-- On an empty list `bar.Complete()` panics and the call never returns. -/
  empty : files = [] → s.main ≠ .returned
  /-- On a list that is not empty nothing panics, and until the caller
  completes the bar its position is the number of recorded completions. -/
  quiet : files ≠ [] → (files.length : Int) ≤ maxInt64 →
    s.panicked = none ∧ (s.main ≠ .returned → s.bar.current = s.finished.length)

/-! ## The scenarios of the specification -/

/-- Ten jobs, told apart by the length of their names. -/
def scenarioFiles : List Job :=
  ["1", "22", "333", "4444", "55555", "666666", "7777777", "88888888", "999999999",
    "aaaaaaaaaa"]

/-- A processor that returns `(1000, 400)` for the first seven jobs of
`scenarioFiles` and fails on the last three. -/
def scenarioProcess (file : Job) : Outcome :=
  if file.length ≤ 7 then ⟨1000, 400, none⟩ else ⟨1000, 0, some "decode error"⟩

/-- A processor that succeeds on the names of odd length and fails on those of
even length: on `["a", "bb", "ccc"]` the job of index `i` succeeds iff `i` is
even. -/
def parityProcess (file : Job) : Outcome :=
  if file.length % 2 = 1 then ⟨10, 4, none⟩ else ⟨10, 0, some "odd index"⟩

/-- A processor that reports a file of `2 ^ 62` bytes, converted to one byte. -/
def hugeProcess (_ : Job) : Outcome := ⟨2 ^ 62, 1, none⟩

/-- The configuration of `avifconv in` on a machine of 8 CPUs. -/
def eightCpuConfig : Config :=
  { InputPath := "in", Version := "dev", Workers := 8, Quality := 80, QualityAlpha := 80,
    Speed := 6, QueueSize := 24 }

/-! ## The progress bar: vocabulary -/

/-- The position of the bar lies between zero and its total, whichever sign
the total has. -/
def ProgressBar.between (p : ProgressBar) : Prop :=
  (0 ≤ p.current ∧ p.current ≤ p.total) ∨ (p.total ≤ p.current ∧ p.current ≤ 0)

end Avifconv

/-! # Theorems -/

namespace Avifconv

/-! ## Wraparound -/

theorem wrapInt64_of_inRange (x : Int) (h1 : -(2 : Int) ^ 63 ≤ x) (h2 : x ≤ maxInt64) :
    wrapInt64 x = x := by
  unfold wrapInt64; unfold maxInt64 at h2; omega

theorem wrapInt64_lower (x : Int) : -(2 : Int) ^ 63 ≤ wrapInt64 x := by
  unfold wrapInt64; omega

theorem wrapInt64_upper (x : Int) : wrapInt64 x ≤ maxInt64 := by
  unfold wrapInt64 maxInt64; omega

theorem wrapInt64_add_left (x y : Int) : wrapInt64 (wrapInt64 x + y) = wrapInt64 (x + y) := by
  unfold wrapInt64; omega

theorem wrapInt64_add_right (x y : Int) : wrapInt64 (x + wrapInt64 y) = wrapInt64 (x + y) := by
  unfold wrapInt64; omega

end Avifconv

namespace Avifconv

/-! ## `float64` rounding -/

/-- Rounding to the nearest integer moves a number by at most one half. -/
theorem abs_roundHalfEven_sub_le (x : ℚ) : |(roundHalfEven x : ℚ) - x| ≤ 1 / 2 := by
  have h1 := Int.floor_le x
  have h2 := Int.lt_floor_add_one x
  unfold roundHalfEven
  rw [abs_le]
  split_ifs <;> push_cast <;> constructor <;> linarith

theorem roundHalfEven_intCast (z : ℤ) : roundHalfEven (z : ℚ) = z := by
  unfold roundHalfEven
  simp

/-- The rounding error is at most half a unit in the last place, hence at
most `2 ^ (-53)` of the magnitude. -/
theorem abs_roundFloat64_sub_le (q : ℚ) : |roundFloat64 q - q| ≤ |q| / 2 ^ 53 := by
  unfold roundFloat64
  split
  · rename_i h; subst h; simp
  · rename_i hq
    have hpos : (0 : ℚ) < |q| := abs_pos.mpr hq
    have hlog : ((2 : ℕ) : ℚ) ^ Int.log 2 |q| ≤ |q| := Int.zpow_log_le_self (by norm_num) hpos
    have hu : (0 : ℚ) < 2 ^ (Int.log 2 |q| - 52) := by positivity
    have hsplit : (2 : ℚ) ^ (Int.log 2 |q| - 52) = 2 ^ Int.log 2 |q| / 2 ^ 52 := by
      rw [zpow_sub₀ (by norm_num)]; norm_cast
    have herr := abs_roundHalfEven_sub_le (q / 2 ^ (Int.log 2 |q| - 52))
    have hrw : (roundHalfEven (q / 2 ^ (Int.log 2 |q| - 52)) : ℚ) * 2 ^ (Int.log 2 |q| - 52) - q =
        ((roundHalfEven (q / 2 ^ (Int.log 2 |q| - 52)) : ℚ) - q / 2 ^ (Int.log 2 |q| - 52)) *
          2 ^ (Int.log 2 |q| - 52) := by
      field_simp
    rw [hrw, abs_mul, abs_of_pos hu]
    calc |(roundHalfEven (q / 2 ^ (Int.log 2 |q| - 52)) : ℚ) - q / 2 ^ (Int.log 2 |q| - 52)| *
          2 ^ (Int.log 2 |q| - 52)
        ≤ 1 / 2 * 2 ^ (Int.log 2 |q| - 52) := by
          exact mul_le_mul_of_nonneg_right herr (le_of_lt hu)
      _ = 2 ^ Int.log 2 |q| / 2 ^ 53 := by rw [hsplit]; ring
      _ ≤ |q| / 2 ^ 53 := by
          apply div_le_div_of_nonneg_right _ (by positivity)
          simpa using hlog

theorem roundFloat64_zero : roundFloat64 0 = 0 := by
  simp [roundFloat64]

/-- The rounding in relative form. -/
theorem roundFloat64_rel (q : ℚ) : ∃ δ : ℚ, |δ| ≤ 1 / 2 ^ 53 ∧ roundFloat64 q = q * (1 + δ) := by
  by_cases hq : q = 0
  · subst hq
    exact ⟨0, by simp, by simp [roundFloat64_zero]⟩
  · refine ⟨(roundFloat64 q - q) / q, ?_, by field_simp⟩
    rw [abs_div, div_le_iff₀ (abs_pos.mpr hq)]
    have := abs_roundFloat64_sub_le q
    calc |roundFloat64 q - q| ≤ |q| / 2 ^ 53 := this
      _ = 1 / 2 ^ 53 * |q| := by ring

/-- An integer of magnitude below `2 ^ 53` is a float64. -/
theorem roundFloat64_intCast (z : ℤ) (hz : z.natAbs < 2 ^ 53) : roundFloat64 (z : ℚ) = z := by
  by_cases h0 : z = 0
  · subst h0; simp [roundFloat64_zero]
  · have hq : (z : ℚ) ≠ 0 := by exact_mod_cast h0
    have habs : |(z : ℚ)| = ((z.natAbs : ℕ) : ℚ) := by
      rw [Nat.cast_natAbs, Int.cast_abs]
    have hlog : Int.log 2 |(z : ℚ)| = (Nat.log 2 z.natAbs : ℤ) := by
      rw [habs, Int.log_natCast]
    have hlt : Nat.log 2 z.natAbs < 53 :=
      Nat.log_lt_of_lt_pow (by simpa using h0) hz
    obtain ⟨k, hk⟩ : ∃ k : ℕ, Nat.log 2 z.natAbs + k = 52 := ⟨52 - Nat.log 2 z.natAbs, by omega⟩
    have hexp : (Nat.log 2 z.natAbs : ℤ) - 52 = -(k : ℤ) := by omega
    unfold roundFloat64
    rw [if_neg hq, hlog, hexp, zpow_neg, zpow_natCast]
    have hm : (z : ℚ) / (2 ^ k)⁻¹ = ((z * 2 ^ k : ℤ) : ℚ) := by
      push_cast; field_simp
    rw [hm, roundHalfEven_intCast]
    push_cast
    field_simp


/-- Rounding does not move a quotient of small integers across an integer:
when `q * D` is an integer of magnitude below `2 ^ 53` for a positive `D`,
the rounded `q` truncates as `q` does. -/
theorem truncate_roundFloat64 (q : ℚ) (D : ℕ) (m : ℤ) (hD : 0 < D) (hm : q * D = m)
    (hsmall : m.natAbs < 2 ^ 53) : truncate (roundFloat64 q) = truncate q := by
  have hDq : (0 : ℚ) < D := by exact_mod_cast hD
  have hD1 : (1 : ℚ) ≤ D := by exact_mod_cast hD
  have hmabs : |(m : ℚ)| < 2 ^ 53 := by
    rw [← Int.cast_abs, Int.abs_eq_natAbs]
    exact_mod_cast hsmall
  have hqabs : |q| * D = |(m : ℚ)| := by
    rw [← hm, abs_mul, abs_of_pos hDq]
  by_cases hint : q = (⌊q⌋ : ℚ)
  · -- an integer of small magnitude is not moved at all
    have hfl : (⌊q⌋).natAbs < 2 ^ 53 := by
      have h1 : |((⌊q⌋ : ℤ) : ℚ)| ≤ |(m : ℚ)| := by
        rw [← hint, ← hqabs]
        exact le_mul_of_one_le_right (abs_nonneg q) hD1
      have h2 : |((⌊q⌋ : ℤ) : ℚ)| < 2 ^ 53 := lt_of_le_of_lt h1 hmabs
      rw [← Int.cast_abs, Int.abs_eq_natAbs] at h2
      exact_mod_cast h2
    rw [hint, roundFloat64_intCast _ hfl]
  · have hlo : (⌊q⌋ : ℚ) < q := lt_of_le_of_ne (Int.floor_le q) (fun h => hint h.symm)
    have hhi : q < (⌊q⌋ : ℚ) + 1 := Int.lt_floor_add_one q
    have herr : |roundFloat64 q - q| < 1 / D := by
      have h1 := abs_roundFloat64_sub_le q
      have h2 : |q| / 2 ^ 53 < 1 / D := by
        rw [div_lt_div_iff₀ (by positivity) hDq, one_mul, hqabs]
        exact hmabs
      exact lt_of_le_of_lt h1 h2
    -- the distances of `q` to the integers around it are multiples of `1 / D`
    have hdlo : 1 / (D : ℚ) ≤ q - ⌊q⌋ := by
      have hz : (0 : ℤ) < m - ⌊q⌋ * D := by
        have : (0 : ℚ) < ((m - ⌊q⌋ * D : ℤ) : ℚ) := by
          push_cast; rw [← hm]; nlinarith
        exact_mod_cast this
      have hz1 : (1 : ℚ) ≤ ((m - ⌊q⌋ * D : ℤ) : ℚ) := by exact_mod_cast hz
      rw [div_le_iff₀ hDq]
      push_cast at hz1; rw [← hm] at hz1; linarith
    have hdhi : 1 / (D : ℚ) ≤ ⌊q⌋ + 1 - q := by
      have hz : (0 : ℤ) < (⌊q⌋ + 1) * D - m := by
        have : (0 : ℚ) < (((⌊q⌋ + 1) * D - m : ℤ) : ℚ) := by
          push_cast; rw [← hm]; nlinarith
        exact_mod_cast this
      have hz1 : (1 : ℚ) ≤ (((⌊q⌋ + 1) * D - m : ℤ) : ℚ) := by exact_mod_cast hz
      rw [div_le_iff₀ hDq]
      push_cast at hz1; rw [← hm] at hz1; linarith
    rw [abs_lt] at herr
    have hrlo : (⌊q⌋ : ℚ) < roundFloat64 q := by linarith
    have hrhi : roundFloat64 q < (⌊q⌋ : ℚ) + 1 := by linarith
    have hfloor : ⌊roundFloat64 q⌋ = ⌊q⌋ := by
      rw [Int.floor_eq_iff]; exact ⟨le_of_lt hrlo, hrhi⟩
    have hceil : ⌈roundFloat64 q⌉ = ⌊q⌋ + 1 := by
      rw [Int.ceil_eq_iff]; push_cast; exact ⟨by linarith, le_of_lt hrhi⟩
    have hceilq : ⌈q⌉ = ⌊q⌋ + 1 := by
      rw [Int.ceil_eq_iff]; push_cast; exact ⟨by linarith, le_of_lt hhi⟩
    unfold truncate
    by_cases hq0 : 0 ≤ q
    · have hf0 : (0 : ℚ) ≤ (⌊q⌋ : ℚ) := by
        have : (0 : ℤ) ≤ ⌊q⌋ := Int.floor_nonneg.mpr hq0
        exact_mod_cast this
      rw [if_pos hq0, if_pos (by linarith), hfloor]
    · have hf1 : ((⌊q⌋ : ℤ) : ℚ) + 1 ≤ 0 := by
        have : ⌊q⌋ < 0 := Int.floor_lt.mpr (by push_cast; linarith [not_le.mp hq0])
        have : ⌊q⌋ + 1 ≤ 0 := by omega
        exact_mod_cast this
      rw [if_neg hq0, if_neg (by linarith), hceil, hceilq]

theorem truncate_neg (q : ℚ) : truncate (-q) = -truncate q := by
  unfold truncate
  rcases lt_trichotomy q 0 with h | h | h
  · rw [if_pos (by linarith), if_neg (by linarith), Int.floor_neg]
  · subst h; simp
  · rw [if_neg (by linarith), if_pos (by linarith), Int.ceil_neg]

theorem truncate_natCast_div (a b : ℕ) : truncate ((a : ℚ) / b) = ((a / b : ℕ) : ℤ) := by
  unfold truncate
  rw [if_pos (by positivity)]
  have := Rat.floor_intCast_div_natCast (a : ℤ) b
  simpa using this

/-- Truncating the exact quotient of two integers is `Int.tdiv`. -/
theorem truncate_intCast_div (n d : ℤ) : truncate ((n : ℚ) / d) = Int.tdiv n d := by
  rcases Int.eq_nat_or_neg n with ⟨a, rfl | rfl⟩ <;>
    rcases Int.eq_nat_or_neg d with ⟨b, rfl | rfl⟩
  · rw [Int.cast_natCast, Int.cast_natCast, truncate_natCast_div]; rfl
  · rw [Int.tdiv_neg]
    push_cast
    rw [div_neg, truncate_neg, truncate_natCast_div]; rfl
  · rw [Int.neg_tdiv]
    push_cast
    rw [neg_div, truncate_neg, truncate_natCast_div]; rfl
  · rw [Int.neg_tdiv, Int.tdiv_neg]
    push_cast
    rw [neg_div_neg_eq, truncate_natCast_div, neg_neg]; rfl


/-- On small operands the float expression is the truncated exact quotient. -/
theorem filledFloat_small (w c t : ℤ) (ht : t ≠ 0) (hw : w.natAbs < 2 ^ 53)
    (hc : c.natAbs < 2 ^ 53) (htt : t.natAbs < 2 ^ 53) (hwc : (w * c).natAbs < 2 ^ 53) :
    filledFloat w c t = Int.tdiv (w * c) t := by
  have htq : (t : ℚ) ≠ 0 := by exact_mod_cast ht
  have hD : 0 < t.natAbs := Int.natAbs_pos.mpr ht
  have hDq : (0 : ℚ) < (t.natAbs : ℚ) := by exact_mod_cast hD
  have hprod : (w : ℚ) * c = ((w * c : ℤ) : ℚ) := by push_cast; ring
  have hm : ((w * c : ℤ) : ℚ) / t * (t.natAbs : ℕ) = ((w * c * Int.sign t : ℤ) : ℚ) := by
    have hs : ((t.natAbs : ℕ) : ℚ) = (t : ℚ) * (Int.sign t : ℚ) := by
      have habs : ((t.natAbs : ℕ) : ℚ) = |(t : ℚ)| := by rw [Nat.cast_natAbs, Int.cast_abs]
      rcases lt_trichotomy t 0 with h | h | h
      · have hq : (t : ℚ) < 0 := by exact_mod_cast h
        rw [habs, abs_of_neg hq, Int.sign_eq_neg_one_of_neg h]; push_cast; ring
      · exact absurd h ht
      · have hq : (0 : ℚ) < t := by exact_mod_cast h
        rw [habs, abs_of_pos hq, Int.sign_eq_one_of_pos h]; push_cast; ring
    rw [hs]; push_cast; field_simp; ring
  have hsmall : (w * c * Int.sign t).natAbs < 2 ^ 53 := by
    rw [Int.natAbs_mul, Int.natAbs_sign_of_nonzero ht, mul_one]; exact hwc
  have htr := truncate_roundFloat64 (((w * c : ℤ) : ℚ) / t) t.natAbs _ hD hm hsmall
  have hqabs : |((w * c : ℤ) : ℚ) / t| < 2 ^ 53 := by
    have h1 : |((w * c : ℤ) : ℚ)| < 2 ^ 53 := by
      rw [← Int.cast_abs, Int.abs_eq_natAbs]; exact_mod_cast hwc
    have h2 : (1 : ℚ) ≤ |(t : ℚ)| := by
      rw [← Int.cast_abs, Int.abs_eq_natAbs]; exact_mod_cast hD
    rw [abs_div]
    calc |((w * c : ℤ) : ℚ)| / |(t : ℚ)| ≤ |((w * c : ℤ) : ℚ)| / 1 :=
          div_le_div_of_nonneg_left (abs_nonneg _) one_pos h2
      _ < 2 ^ 53 := by simpa using h1
  have hrange : |roundFloat64 (((w * c : ℤ) : ℚ) / t)| < 2 ^ 63 := by
    have h1 := abs_roundFloat64_sub_le (((w * c : ℤ) : ℚ) / t)
    have h2 : |roundFloat64 (((w * c : ℤ) : ℚ) / t)| ≤
        |roundFloat64 (((w * c : ℤ) : ℚ) / t) - ((w * c : ℤ) : ℚ) / t| +
          |((w * c : ℤ) : ℚ) / t| := by
      have := abs_add (roundFloat64 (((w * c : ℤ) : ℚ) / t) - ((w * c : ℤ) : ℚ) / t)
        (((w * c : ℤ) : ℚ) / t)
      simpa using this
    have h3 : |((w * c : ℤ) : ℚ) / t| / 2 ^ 53 ≤ |((w * c : ℤ) : ℚ) / t| :=
      div_le_self (abs_nonneg _) (by norm_num)
    have : (2 : ℚ) ^ 53 + 2 ^ 53 < 2 ^ 63 := by norm_num
    linarith
  rw [abs_lt] at hrange
  unfold filledFloat
  rw [if_neg ht, roundFloat64_intCast w hw, roundFloat64_intCast c hc,
    roundFloat64_intCast t htt, hprod, roundFloat64_intCast _ hwc]
  unfold float64ToInt
  rw [if_pos ⟨le_of_lt hrange.1, hrange.2⟩, htr, truncate_intCast_div]

/-- With `current` between 0 and a non-zero `total`, the filled width of a bar
of width 50 is between 0 and 50, whatever the rounding. -/
theorem filledFloat_bounds (c t : ℤ) (ht : t ≠ 0)
    (hb : (0 ≤ c ∧ c ≤ t) ∨ (t ≤ c ∧ c ≤ 0)) :
    0 ≤ filledFloat 50 c t ∧ filledFloat 50 c t ≤ 50 := by
  have htq : (t : ℚ) ≠ 0 := by exact_mod_cast ht
  have hr0 : 0 ≤ (c : ℚ) / t := by
    rcases hb with ⟨h1, h2⟩ | ⟨h1, h2⟩
    · exact div_nonneg (by exact_mod_cast h1) (by exact_mod_cast le_trans h1 h2)
    · exact div_nonneg_of_nonpos (by exact_mod_cast h2) (by exact_mod_cast le_trans h1 h2)
  have hr1 : (c : ℚ) / t ≤ 1 := by
    rcases hb with ⟨h1, h2⟩ | ⟨h1, h2⟩
    · have htpos : (0 : ℚ) < t := by
        have : 0 < t := lt_of_le_of_ne (le_trans h1 h2) (fun h => ht h.symm)
        exact_mod_cast this
      rw [div_le_one htpos]; exact_mod_cast h2
    · have htneg : (t : ℚ) < 0 := by
        have : t < 0 := lt_of_le_of_ne (le_trans h1 h2) ht
        exact_mod_cast this
      rw [div_le_one_of_neg htneg]; exact_mod_cast h1
  have heps : (1 : ℚ) / 2 ^ 53 ≤ 1 / 1000 := by norm_num
  have e50 : roundFloat64 ((50 : ℤ) : ℚ) = ((50 : ℤ) : ℚ) := roundFloat64_intCast 50 (by decide)
  obtain ⟨d1, hd1, e1⟩ := roundFloat64_rel (c : ℚ)
  obtain ⟨d2, hd2, e2⟩ := roundFloat64_rel (t : ℚ)
  obtain ⟨d3, hd3, e3⟩ := roundFloat64_rel (roundFloat64 ((50 : ℤ) : ℚ) * roundFloat64 (c : ℚ))
  obtain ⟨d4, hd4, e4⟩ := roundFloat64_rel
    (roundFloat64 (roundFloat64 ((50 : ℤ) : ℚ) * roundFloat64 (c : ℚ)) / roundFloat64 (t : ℚ))
  rw [abs_le] at hd1 hd2 hd3 hd4
  have x1lo : (999 : ℚ) / 1000 ≤ 1 + d1 := by linarith
  have x1hi : 1 + d1 ≤ (1001 : ℚ) / 1000 := by linarith
  have x2lo : (999 : ℚ) / 1000 ≤ 1 + d2 := by linarith
  have x3lo : (999 : ℚ) / 1000 ≤ 1 + d3 := by linarith
  have x3hi : 1 + d3 ≤ (1001 : ℚ) / 1000 := by linarith
  have x4lo : (999 : ℚ) / 1000 ≤ 1 + d4 := by linarith
  have x4hi : 1 + d4 ≤ (1001 : ℚ) / 1000 := by linarith
  have x2pos : (0 : ℚ) < 1 + d2 := by linarith
  have hQ : roundFloat64
      (roundFloat64 (roundFloat64 ((50 : ℤ) : ℚ) * roundFloat64 (c : ℚ)) / roundFloat64 (t : ℚ)) =
      50 * ((c : ℚ) / t) * ((1 + d1) * (1 + d3) * (1 + d4) / (1 + d2)) := by
    rw [e4, e3, e2, e1, e50]
    push_cast
    field_simp
    ring
  have hK0 : 0 ≤ (1 + d1) * (1 + d3) * (1 + d4) / (1 + d2) := by
    apply div_nonneg _ (le_of_lt x2pos)
    have : 0 ≤ 1 + d1 := by linarith
    have : 0 ≤ 1 + d3 := by linarith
    have : 0 ≤ 1 + d4 := by linarith
    positivity
  have hK1 : (1 + d1) * (1 + d3) * (1 + d4) / (1 + d2) ≤
      (1001 / 1000) * (1001 / 1000) * (1001 / 1000) / (999 / 1000) := by
    have : 0 ≤ 1 + d1 := by linarith
    have : 0 ≤ 1 + d3 := by linarith
    have : 0 ≤ 1 + d4 := by linarith
    gcongr
  have hQ0 : 0 ≤ roundFloat64
      (roundFloat64 (roundFloat64 ((50 : ℤ) : ℚ) * roundFloat64 (c : ℚ)) / roundFloat64 (t : ℚ)) := by
    rw [hQ]; positivity
  have hQ1 : roundFloat64
      (roundFloat64 (roundFloat64 ((50 : ℤ) : ℚ) * roundFloat64 (c : ℚ)) / roundFloat64 (t : ℚ)) <
      51 := by
    rw [hQ]
    have h1 : 50 * ((c : ℚ) / t) ≤ 50 := by linarith
    have h2 : 0 ≤ 50 * ((c : ℚ) / t) := by positivity
    calc 50 * ((c : ℚ) / t) * ((1 + d1) * (1 + d3) * (1 + d4) / (1 + d2))
        ≤ 50 * ((1001 / 1000) * (1001 / 1000) * (1001 / 1000) / (999 / 1000)) := by
          apply mul_le_mul h1 hK1 hK0 (by norm_num)
      _ < 51 := by norm_num
  unfold filledFloat
  rw [if_neg ht]
  unfold float64ToInt
  rw [if_pos ⟨by linarith, by linarith⟩]
  unfold truncate
  rw [if_pos hQ0]
  constructor
  · exact Int.floor_nonneg.mpr hQ0
  · have : ⌊roundFloat64
      (roundFloat64 (roundFloat64 ((50 : ℤ) : ℚ) * roundFloat64 (c : ℚ)) / roundFloat64 (t : ℚ))⌋ <
        51 := Int.floor_lt.mpr (by exact_mod_cast hQ1)
    omega

/-- The filled width is the float expression of the source in every case. -/
theorem ProgressBar.filled_eq_filledFloat (p : ProgressBar) :
    p.filled = filledFloat p.width p.current p.total := by
  unfold ProgressBar.filled
  split
  · rename_i h
    exact (filledFloat_small p.width p.current p.total h.1 h.2.1 h.2.2.1 h.2.2.2.1
      h.2.2.2.2).symm
  · rfl

/-- On a bar of width 50 whose position lies between zero and a total that is
not zero, the filled width is between 0 and 50 and `render` does not panic. -/
theorem ProgressBar.render_ok (p : ProgressBar) (hw : p.width = 50) (ht : p.total ≠ 0)
    (hb : p.between) :
    0 ≤ p.filled ∧ p.filled ≤ p.width ∧ 0 ≤ p.repeatCounts.1 ∧ 0 ≤ p.repeatCounts.2 ∧
      p.render = .ok (if p.complete then [] else [BarOutput.line p.current p.total]) := by
  have hf := filledFloat_bounds p.current p.total ht hb
  rw [← hw, ← ProgressBar.filled_eq_filledFloat] at hf
  have hcount : wrapInt64 (p.width - p.filled) = p.width - p.filled :=
    wrapInt64_of_inRange _ (by omega) (by unfold maxInt64; omega)
  refine ⟨hf.1, by omega, hf.1, ?_, ?_⟩
  · show 0 ≤ wrapInt64 (p.width - p.filled)
    rw [hcount]; omega
  · unfold ProgressBar.render ProgressBar.repeatCounts
    split
    · rfl
    · rw [if_neg]
      rw [hcount]; omega

end Avifconv

namespace Avifconv

/-! ## The statistics under a sequence of critical sections -/

theorem workerCritical_inRange (s : ProcessStats) (o : Outcome) (h : isInt64 s.TotalFiles)
    (h1 : isInt64 s.TotalOriginalSize) (h2 : isInt64 s.TotalCompressedSize)
    (h3 : isInt64 s.SuccessfulFiles) (h4 : isInt64 s.FailedFiles) :
    (workerCritical s o).inRange := by
  unfold workerCritical ProcessStats.inRange
  cases o.err <;>
    simp only [isInt64, wrapInt64_lower, wrapInt64_upper, and_self, true_and] <;>
    simp_all [isInt64]

theorem succCount_cons (o : Outcome) (os : List Outcome) :
    succCount (o :: os) = succCount os + (if o.succeeded then 1 else 0) := by
  simp [succCount, List.countP_cons]

theorem failCount_cons (o : Outcome) (os : List Outcome) :
    failCount (o :: os) = failCount os + (if o.succeeded then 0 else 1) := by
  cases h : o.succeeded <;> simp [failCount, List.countP_cons, h]

theorem origSum_cons (o : Outcome) (os : List Outcome) :
    origSum (o :: os) = (if o.succeeded then o.origSize else 0) + origSum os := by
  cases h : o.succeeded <;> simp [origSum, List.filter_cons, h]

theorem compSum_cons (o : Outcome) (os : List Outcome) :
    compSum (o :: os) = (if o.succeeded then o.compSize else 0) + compSum os := by
  cases h : o.succeeded <;> simp [compSum, List.filter_cons, h]

/-- The closed form of the statistics after a sequence of critical sections:
every counter is its start value plus its exact tally, wrapped. -/
theorem applyOutcomes_eq (s : ProcessStats) (hs : s.inRange) (os : List Outcome) :
    applyOutcomes s os =
      { TotalOriginalSize := wrapInt64 (s.TotalOriginalSize + origSum os)
        TotalCompressedSize := wrapInt64 (s.TotalCompressedSize + compSum os)
        TotalFiles := s.TotalFiles
        ProcessedFiles := wrapInt64 (s.ProcessedFiles + os.length)
        SuccessfulFiles := wrapInt64 (s.SuccessfulFiles + succCount os)
        FailedFiles := wrapInt64 (s.FailedFiles + failCount os) } := by
  induction os generalizing s with
  | nil =>
    obtain ⟨⟨a1, a2⟩, ⟨b1, b2⟩, -, ⟨c1, c2⟩, ⟨d1, d2⟩, ⟨e1, e2⟩⟩ := hs
    cases s
    simp_all [applyOutcomes, origSum, compSum, succCount, failCount, wrapInt64_of_inRange]
  | cons o os ih =>
    have hr : (workerCritical s o).inRange :=
      workerCritical_inRange s o hs.2.2.1 hs.1 hs.2.1 hs.2.2.2.2.1 hs.2.2.2.2.2
    have step : applyOutcomes s (o :: os) = applyOutcomes (workerCritical s o) os := rfl
    rw [step, ih _ hr, succCount_cons, failCount_cons, origSum_cons, compSum_cons]
    unfold workerCritical Outcome.succeeded
    cases o.err <;> simp <;> repeat' constructor
    all_goals (rw [wrapInt64_add_left]; congr 1; ring)

end Avifconv

namespace Avifconv

theorem succCount_add_failCount (os : List Outcome) :
    succCount os + failCount os = os.length := by
  induction os with
  | nil => rfl
  | cons o os ih => rw [succCount_cons, failCount_cons, List.length_cons]; split <;> omega

/-- C2. Starting from `ProcessStats{TotalFiles: n}` with every other counter
zero, after any sequence of at most `n` worker critical sections, and at every
point `k` of that sequence, `ProcessedFiles == SuccessfulFiles + FailedFiles`
and `ProcessedFiles <= TotalFiles`. -/
theorem C2_stats_invariant (n : Nat) (hn : (n : Int) ≤ maxInt64) (os : List Outcome)
    (hos : os.length ≤ n) (k : Nat) :
    (applyOutcomes { TotalFiles := n } (os.take k)).ProcessedFiles =
        (applyOutcomes { TotalFiles := n } (os.take k)).SuccessfulFiles +
          (applyOutcomes { TotalFiles := n } (os.take k)).FailedFiles ∧
      (applyOutcomes { TotalFiles := n } (os.take k)).ProcessedFiles ≤
        (applyOutcomes { TotalFiles := n } (os.take k)).TotalFiles := by
  have hr : ProcessStats.inRange { TotalFiles := n } := by
    unfold ProcessStats.inRange isInt64 maxInt64; unfold maxInt64 at hn
    simp only []; omega
  have hlen : (os.take k).length ≤ n := by
    rw [List.length_take]; omega
  have hsf := succCount_add_failCount (os.take k)
  rw [applyOutcomes_eq _ hr]
  simp only [zero_add]
  unfold maxInt64 at hn
  rw [wrapInt64_of_inRange, wrapInt64_of_inRange, wrapInt64_of_inRange] <;>
    first
      | (unfold maxInt64; omega)
      | omega

theorem C2_stats_invariant_witness :
    (applyOutcomes { TotalFiles := (3 : Nat) }
        (([⟨10, 4, none⟩, ⟨10, 0, some "e"⟩] : List Outcome).take 1)).ProcessedFiles =
        (applyOutcomes { TotalFiles := (3 : Nat) }
          (([⟨10, 4, none⟩, ⟨10, 0, some "e"⟩] : List Outcome).take 1)).SuccessfulFiles +
          (applyOutcomes { TotalFiles := (3 : Nat) }
            (([⟨10, 4, none⟩, ⟨10, 0, some "e"⟩] : List Outcome).take 1)).FailedFiles ∧
      (applyOutcomes { TotalFiles := (3 : Nat) }
        (([⟨10, 4, none⟩, ⟨10, 0, some "e"⟩] : List Outcome).take 1)).ProcessedFiles ≤
        (applyOutcomes { TotalFiles := (3 : Nat) }
          (([⟨10, 4, none⟩, ⟨10, 0, some "e"⟩] : List Outcome).take 1)).TotalFiles :=
  C2_stats_invariant 3 (by decide) [⟨10, 4, none⟩, ⟨10, 0, some "e"⟩] (by decide) 1

end Avifconv

namespace Avifconv

/-! ## The progress bar -/

/-- The bar as `Complete()` leaves it: untouched when it was complete, else at
its total, with the flag set when `render` returned. -/
theorem ProgressBar.Complete_fst (p : ProgressBar) :
    p.Complete.1 =
      if p.complete then p
      else { p with current := p.total,
                    complete := !({ p with current := p.total } : ProgressBar).renderPanics } := by
  unfold ProgressBar.Complete ProgressBar.renderPanics
  split
  · rfl
  · rename_i h
    have hc : p.complete = false := by simpa using h
    dsimp only
    cases hr : ({ p with current := p.total } : ProgressBar).render with
    | error e => simp only [hc, Bool.not_true]
    | ok out => simp only [Bool.not_false]

theorem ProgressBar.Complete_total (p : ProgressBar) : p.Complete.1.total = p.total := by
  rw [ProgressBar.Complete_fst]; split <;> rfl

theorem ProgressBar.Complete_width (p : ProgressBar) : p.Complete.1.width = p.width := by
  rw [ProgressBar.Complete_fst]; split <;> rfl

theorem ProgressBar.Complete_current (p : ProgressBar) :
    p.Complete.1.current = if p.complete then p.current else p.total := by
  rw [ProgressBar.Complete_fst]; split <;> rfl

theorem ProgressBar.apply_total (p : ProgressBar) (op : BarOp) :
    (p.apply op).total = p.total := by
  cases op with
  | increment n => simp only [ProgressBar.apply, ProgressBar.Increment]; split <;> rfl
  | set v => simp only [ProgressBar.apply, ProgressBar.Set]; split <;> rfl
  | complete => exact ProgressBar.Complete_total p

theorem ProgressBar.applyAll_total (p : ProgressBar) (ops : List BarOp) :
    (p.applyAll ops).total = p.total := by
  induction ops generalizing p with
  | nil => rfl
  | cons op ops ih =>
    show ((p.apply op).applyAll ops).total = p.total
    rw [ih, ProgressBar.apply_total]

theorem ProgressBar.apply_width (p : ProgressBar) (op : BarOp) :
    (p.apply op).width = p.width := by
  cases op with
  | increment n => simp only [ProgressBar.apply, ProgressBar.Increment]; split <;> rfl
  | set v => simp only [ProgressBar.apply, ProgressBar.Set]; split <;> rfl
  | complete => exact ProgressBar.Complete_width p

theorem ProgressBar.applyAll_width (p : ProgressBar) (ops : List BarOp) :
    (p.applyAll ops).width = p.width := by
  induction ops generalizing p with
  | nil => rfl
  | cons op ops ih =>
    show ((p.apply op).applyAll ops).width = p.width
    rw [ih, ProgressBar.apply_width]

/-- The calls `Increment` and `Set` leave the flag alone. -/
theorem ProgressBar.Increment_complete (p : ProgressBar) (n : Int) :
    (p.Increment n).1.complete = p.complete := by
  simp only [ProgressBar.Increment]; split <;> rfl

theorem ProgressBar.Set_complete (p : ProgressBar) (v : Int) :
    (p.Set v).1.complete = p.complete := by
  simp only [ProgressBar.Set]; split <;> rfl

/-- The step `Increment(1)` below the total moves the bar by one. -/
theorem ProgressBar.Increment_one_current (p : ProgressBar) (h0 : 0 ≤ p.current)
    (h1 : p.current + 1 ≤ p.total) (ht : p.total ≤ maxInt64) :
    (p.Increment 1).1.current = p.current + 1 := by
  have hw : wrapInt64 (p.current + 1) = p.current + 1 :=
    wrapInt64_of_inRange _ (by omega) (by omega)
  simp only [ProgressBar.Increment, hw]
  split
  · rename_i h
    have h' : p.current + 1 > p.total := h
    omega
  · rfl

/-- A first `Complete()` whose `render` panics leaves the bar at its total
with the flag unset, and passes the panic on. -/
theorem ProgressBar.Complete_of_error (p : ProgressBar) (hc : p.complete = false) (e : String)
    (h : ({ p with current := p.total } : ProgressBar).render = .error e) :
    p.Complete = ({ p with current := p.total }, .error e) := by
  unfold ProgressBar.Complete
  rw [if_neg (by simp [hc])]
  dsimp only
  rw [h]

/-- A first `Complete()` whose `render` returns sets the flag and adds the
newline. -/
theorem ProgressBar.Complete_of_ok (p : ProgressBar) (hc : p.complete = false)
    (out : List BarOutput)
    (h : ({ p with current := p.total } : ProgressBar).render = .ok out) :
    p.Complete =
      ({ p with current := p.total, complete := true }, .ok (out ++ [BarOutput.newline])) := by
  unfold ProgressBar.Complete
  rw [if_neg (by simp [hc])]
  dsimp only
  rw [h]

/-- On a complete bar `Complete()` returns at once: same state, no output. -/
theorem ProgressBar.Complete_of_complete (p : ProgressBar) (h : p.complete = true) :
    p.Complete = (p, .ok []) := by
  simp [ProgressBar.Complete, h]

/-- With a total of zero the quotient in `render` is a NaN or an infinity, the
filled width is negative and `render` panics, unless the bar is complete. -/
theorem ProgressBar.render_of_total_zero (p : ProgressBar) (hc : p.complete = false)
    (ht : p.total = 0) : p.render = .error "strings: negative Repeat count" := by
  have hf : p.filled = -2 ^ 63 := by
    unfold ProgressBar.filled filledFloat
    rw [if_neg (by simp [ht]), if_pos ht]
  have hneg : p.repeatCounts.1 < 0 := by
    show p.filled < 0
    rw [hf]; decide
  unfold ProgressBar.render
  rw [if_neg (by simp [hc]), if_pos (Or.inl hneg)]

/-- Every call leaves `current` at or below `total`, when it was there before;
`Increment`, `Set` and the first `Complete` do so from any state. -/
theorem ProgressBar.apply_le_total (p : ProgressBar) (op : BarOp)
    (h : p.current ≤ p.total ∨ op ≠ BarOp.complete ∨ p.complete = false) :
    (p.apply op).current ≤ p.total := by
  cases op with
  | increment n =>
    simp only [ProgressBar.apply, ProgressBar.Increment]
    split <;> simp_all
  | set v =>
    simp only [ProgressBar.apply, ProgressBar.Set]
    split <;> simp_all
  | complete =>
    simp only [ProgressBar.apply, ProgressBar.Complete_current]
    split <;> simp_all

/-- A call whose argument is `nonNeg` keeps a non-negative `current`
non-negative. -/
theorem ProgressBar.apply_nonneg (p : ProgressBar) (op : BarOp) (h0 : 0 ≤ p.current)
    (hle : p.current ≤ p.total) (hop : op.nonNeg p.total) : 0 ≤ (p.apply op).current := by
  cases op with
  | increment n =>
    obtain ⟨h1, h2⟩ := hop
    have hw : wrapInt64 (p.current + n) = p.current + n :=
      wrapInt64_of_inRange _ (by omega) (by omega)
    simp only [ProgressBar.apply, ProgressBar.Increment, hw]
    split
    · simp only []; omega
    · simp only []; omega
  | set v =>
    simp only [BarOp.nonNeg] at hop
    simp only [ProgressBar.apply, ProgressBar.Set]
    split
    · simp only []; omega
    · simpa using hop
  | complete =>
    simp only [ProgressBar.apply, ProgressBar.Complete_current]
    split
    · exact h0
    · omega

theorem ProgressBar.applyAll_le_total (p : ProgressBar) (ops : List BarOp)
    (h : p.current ≤ p.total ∨ (ops ≠ [] ∧ p.complete = false)) :
    (p.applyAll ops).current ≤ p.total := by
  induction ops generalizing p with
  | nil => simpa [ProgressBar.applyAll] using h
  | cons op ops ih =>
    show ((p.apply op).applyAll ops).current ≤ p.total
    have h1 : (p.apply op).current ≤ (p.apply op).total := by
      rw [ProgressBar.apply_total]
      apply ProgressBar.apply_le_total
      rcases h with h | ⟨-, h⟩
      · exact Or.inl h
      · exact Or.inr (Or.inr h)
    have := ih (p.apply op) (Or.inl h1)
    rwa [ProgressBar.apply_total] at this

theorem ProgressBar.applyAll_nonneg (p : ProgressBar) (ops : List BarOp) (h0 : 0 ≤ p.current)
    (hle : p.current ≤ p.total) (hops : ∀ op ∈ ops, op.nonNeg p.total) :
    0 ≤ (p.applyAll ops).current := by
  induction ops generalizing p with
  | nil => exact h0
  | cons op ops ih =>
    show 0 ≤ ((p.apply op).applyAll ops).current
    have hop := hops op (List.mem_cons_self _ _)
    apply ih
    · exact ProgressBar.apply_nonneg p op h0 hle hop
    · rw [ProgressBar.apply_total]; exact ProgressBar.apply_le_total p op (Or.inl hle)
    · intro op' hmem
      rw [ProgressBar.apply_total]
      exact hops op' (List.mem_cons_of_mem _ hmem)

/-- C9, the claim as stated fails: `Set(-1)` on a fresh bar of total 100 leaves
`current = -1`, below zero, although `-1` is an `int64`; the line is drawn
with a filled width of `int(-0.5) = 0` and the call returns. -/
theorem C9_counterexample :
    (∀ op ∈ [BarOp.set (-1)], op.isInt64) ∧
      ((NewProgressBar 100).applyAll [BarOp.set (-1)]).current = -1 ∧
      ((NewProgressBar 100).applyAll [BarOp.set (-1)]).renderPanics = false ∧
      ¬ (0 ≤ ((NewProgressBar 100).applyAll [BarOp.set (-1)]).current ∧
          ((NewProgressBar 100).applyAll [BarOp.set (-1)]).current ≤
            ((NewProgressBar 100).applyAll [BarOp.set (-1)]).total) := by
  refine ⟨?_, by decide, by decide, by decide⟩
  intro op hop
  rw [List.mem_singleton] at hop
  subst hop
  simp only [BarOp.isInt64, maxInt64]
  omega

/-- C9, amended. Starting from `NewProgressBar(total)`, after any sequence of
`Increment`, `Set` and `Complete` calls with arbitrary arguments `current <=
total` holds (at once when `total >= 0`, and after the first call in any
case): each call clamps `current` to `total` from above. `0 <= current` holds
as well when `total >= 0`, every `Set` value is `>= 0` and every `Increment`
amount `n` has `0 <= n <= maxInt64 - total`. The total never changes. -/
theorem C9_progress_bounds (total : Int) (ops : List BarOp) :
    ((NewProgressBar total).applyAll ops).total = total ∧
      (0 ≤ total ∨ ops ≠ [] → ((NewProgressBar total).applyAll ops).current ≤ total) ∧
      (0 ≤ total → (∀ op ∈ ops, op.nonNeg total) →
        0 ≤ ((NewProgressBar total).applyAll ops).current) := by
  refine ⟨ProgressBar.applyAll_total _ _, ?_, ?_⟩
  · intro h
    apply ProgressBar.applyAll_le_total (NewProgressBar total) ops
    rcases h with h | h
    · exact Or.inl h
    · exact Or.inr ⟨h, rfl⟩
  · intro h0 hops
    exact ProgressBar.applyAll_nonneg (NewProgressBar total) ops (le_refl _) h0 hops

theorem C9_progress_bounds_witness :
    ((NewProgressBar 3).applyAll [BarOp.increment 2, BarOp.set 7, BarOp.complete]).total = 3 ∧
      ((NewProgressBar 3).applyAll [BarOp.increment 2, BarOp.set 7, BarOp.complete]).current
        ≤ 3 ∧
      0 ≤ ((NewProgressBar 3).applyAll
        [BarOp.increment 2, BarOp.set 7, BarOp.complete]).current :=
  ⟨(C9_progress_bounds 3 [BarOp.increment 2, BarOp.set 7, BarOp.complete]).1,
    (C9_progress_bounds 3 [BarOp.increment 2, BarOp.set 7, BarOp.complete]).2.1
      (Or.inl (by decide)),
    (C9_progress_bounds 3 [BarOp.increment 2, BarOp.set 7, BarOp.complete]).2.2 (by decide)
      (by
        intro op hop
        simp only [List.mem_cons, List.mem_singleton, List.not_mem_nil, or_false] at hop
        rcases hop with rfl | rfl | rfl
        · simp only [BarOp.nonNeg, maxInt64]; omega
        · simp only [BarOp.nonNeg]; omega
        · trivial)⟩

/-- C10, the claim as stated fails: a fresh bar of total 10 is set to 5; then
`Set(0)` takes `current` from 5 back to 0. -/
theorem C10_counterexample :
    ((NewProgressBar 10).apply (BarOp.set 5)).current = 5 ∧
      (((NewProgressBar 10).apply (BarOp.set 5)).apply (BarOp.set 0)).current = 0 ∧
      ¬ (((NewProgressBar 10).apply (BarOp.set 5)).current ≤
        (((NewProgressBar 10).apply (BarOp.set 5)).apply (BarOp.set 0)).current) := by
  decide

/-- C10, amended. For every bar whose `current` is an `int64` at or below
`total`, and every call: `current` after the call is at or below `total`; and
it is at or above `current` before the call for `Complete()`, for
`Increment(n)` with `n >= 0` where `current + n` fits in an `int64`, and for
`Set(value)` with `value >= current`. -/
theorem C10_progress_monotone (p : ProgressBar) (op : BarOp) (hr : isInt64 p.current)
    (hle : p.current ≤ p.total) :
    (p.apply op).current ≤ (p.apply op).total ∧
      (op.forward p → p.current ≤ (p.apply op).current) := by
  refine ⟨?_, ?_⟩
  · rw [ProgressBar.apply_total]; exact ProgressBar.apply_le_total p op (Or.inl hle)
  · intro hf
    cases op with
    | increment n =>
      obtain ⟨h1, h2⟩ := hf
      have hw : wrapInt64 (p.current + n) = p.current + n :=
        wrapInt64_of_inRange _ (by have := hr.1; omega) h2
      simp only [ProgressBar.apply, ProgressBar.Increment, hw]
      split
      · exact hle
      · simp only []; omega
    | set v =>
      simp only [BarOp.forward] at hf
      simp only [ProgressBar.apply, ProgressBar.Set]
      split
      · exact hle
      · exact hf
    | complete =>
      simp only [ProgressBar.apply, ProgressBar.Complete_current]
      split
      · exact le_refl _
      · exact hle

theorem C10_progress_monotone_witness :
    ((ProgressBar.mk 10 5 50 false).apply (BarOp.increment 7)).current ≤
        ((ProgressBar.mk 10 5 50 false).apply (BarOp.increment 7)).total ∧
      (ProgressBar.mk 10 5 50 false).current ≤
        ((ProgressBar.mk 10 5 50 false).apply (BarOp.increment 7)).current :=
  ⟨(C10_progress_monotone (ProgressBar.mk 10 5 50 false) (BarOp.increment 7)
      (by simp only [isInt64, maxInt64]; omega) (by decide)).1,
    (C10_progress_monotone (ProgressBar.mk 10 5 50 false) (BarOp.increment 7)
      (by simp only [isInt64, maxInt64]; omega) (by decide)).2
      (by simp only [BarOp.forward, maxInt64]; omega)⟩

end Avifconv

namespace Avifconv

/-! ## `Complete` is idempotent -/

/-- On a complete bar `render` returns at once and writes nothing. -/
theorem ProgressBar.render_of_complete (p : ProgressBar) (h : p.complete = true) :
    p.render = .ok [] := by
  unfold ProgressBar.render
  rw [if_pos h]

/-- On a complete bar every call returns, writes nothing and leaves the flag
set. -/
theorem ProgressBar.apply_of_complete (p : ProgressBar) (op : BarOp) (h : p.complete = true) :
    (p.apply op).complete = true ∧ p.result op = .ok [] := by
  cases op with
  | increment n =>
    have hc : (p.Increment n).1.complete = true := by rw [ProgressBar.Increment_complete]; exact h
    exact ⟨hc, ProgressBar.render_of_complete _ hc⟩
  | set v =>
    have hc : (p.Set v).1.complete = true := by rw [ProgressBar.Set_complete]; exact h
    exact ⟨hc, ProgressBar.render_of_complete _ hc⟩
  | complete =>
    show p.Complete.1.complete = true ∧ p.Complete.2 = .ok []
    rw [ProgressBar.Complete_of_complete p h]
    exact ⟨h, rfl⟩

theorem ProgressBar.runAll_of_complete (p : ProgressBar) (ops : List BarOp)
    (h : p.complete = true) :
    (p.applyAll ops).complete = true ∧ p.runAll ops = .ok (p.applyAll ops, []) := by
  induction ops generalizing p with
  | nil => exact ⟨h, rfl⟩
  | cons op ops ih =>
    obtain ⟨hc, hr⟩ := ProgressBar.apply_of_complete p op h
    obtain ⟨hc', hr'⟩ := ih (p.apply op) hc
    refine ⟨hc', ?_⟩
    simp only [ProgressBar.runAll, hr, hr', List.nil_append]
    rfl

/-- A `Complete()` that panics leaves a bar on which `Complete()` panics again,
without a change. -/
theorem ProgressBar.Complete_after_error (p : ProgressBar) (hc : p.complete = false)
    (e : String) (h : ({ p with current := p.total } : ProgressBar).render = .error e) :
    ({ p with current := p.total } : ProgressBar).Complete =
      ({ p with current := p.total }, .error e) :=
  ProgressBar.Complete_of_error { p with current := p.total } hc e h

/-- C11. For every state of the bar, a second `Complete()` leaves the bar as
the first call left it and writes nothing. A first call that returns leaves
the flag set, and the second one returns at the guard `if p.complete` with no
output; on a bar that was not complete the first call wrote one line, drawn at
`total/total`, and one newline. A first call that panics in `render` has set
`current` to `total` and nothing else, and has written nothing: the flag is
still unset, and a second call (by a caller that recovered) panics in the same
way. The first call returns on every bar of width 50 and a total that is not
zero; on a bar with a total of zero that is not complete it panics. Once the
flag is set, no sequence of `Increment`, `Set` and `Complete` calls unsets it,
none of them writes anything, and all of them return. -/
theorem C11_complete_idempotent (p : ProgressBar) :
    p.Complete.1.Complete.1 = p.Complete.1 ∧
      p.Complete.1.Complete.2 = p.Complete.2.map (fun _ => []) ∧
      (∀ out, p.Complete.2 = .ok out →
        p.Complete.1.complete = true ∧ p.Complete.1.Complete = (p.Complete.1, .ok []) ∧
          (p.complete = true → out = []) ∧
          (p.complete = false → out = [BarOutput.line p.total p.total, BarOutput.newline])) ∧
      (∀ e, p.Complete.2 = .error e →
        p.complete = false ∧ p.Complete.1 = { p with current := p.total } ∧
          p.Complete.1.Complete = (p.Complete.1, .error e)) ∧
      (p.complete = true ∨ (p.width = 50 ∧ p.total ≠ 0) → ∃ out, p.Complete.2 = .ok out) ∧
      (p.complete = false → p.total = 0 →
        p.Complete = ({ p with current := p.total }, .error "strings: negative Repeat count")) ∧
      (p.complete = true → ∀ ops : List BarOp,
        (p.applyAll ops).complete = true ∧ p.runAll ops = .ok (p.applyAll ops, [])) := by
  rcases Bool.eq_false_or_eq_true p.complete with hc | hc
  · have hC := ProgressBar.Complete_of_complete p hc
    refine ⟨by rw [hC, hC], by rw [hC, hC]; rfl, ?_, ?_, ?_, ?_, ?_⟩
    · intro out hout
      rw [hC] at hout ⊢
      cases hout
      exact ⟨hc, hC, fun _ => rfl, fun h => by rw [hc] at h; cases h⟩
    · intro e he
      rw [hC] at he
      cases he
    · intro _
      exact ⟨[], by rw [hC]⟩
    · intro h; rw [hc] at h; cases h
    · intro _ ops
      exact ProgressBar.runAll_of_complete p ops hc
  · cases hr : ({ p with current := p.total } : ProgressBar).render with
    | error e =>
      have hC := ProgressBar.Complete_of_error p hc e hr
      have hC2 := ProgressBar.Complete_after_error p hc e hr
      refine ⟨by rw [hC]; exact congrArg Prod.fst hC2,
        by rw [hC]; exact congrArg Prod.snd hC2, ?_, ?_, ?_, ?_, ?_⟩
      · intro out hout
        rw [hC] at hout
        cases hout
      · intro e1 he1
        rw [hC] at he1 ⊢
        cases he1
        exact ⟨hc, rfl, hC2⟩
      · rintro (h | ⟨hw, ht⟩)
        · rw [hc] at h; cases h
        · have hb : ({ p with current := p.total } : ProgressBar).between := by
            rcases le_total 0 p.total with h | h
            · exact Or.inl ⟨h, le_refl _⟩
            · exact Or.inr ⟨le_refl _, h⟩
          have := (ProgressBar.render_ok { p with current := p.total } hw ht hb).2.2.2.2
          rw [hr] at this
          cases this
      · intro _ ht
        have := ProgressBar.render_of_total_zero { p with current := p.total } hc ht
        rw [hr] at this
        cases this
        exact hC
      · intro h; rw [hc] at h; cases h
    | ok out =>
      have hC := ProgressBar.Complete_of_ok p hc out hr
      have hC2 := ProgressBar.Complete_of_complete
        { p with current := p.total, complete := true } rfl
      have hout : out = [BarOutput.line p.total p.total] := by
        unfold ProgressBar.render at hr
        rw [if_neg (by simp [hc])] at hr
        split at hr
        · cases hr
        · cases hr
          rfl
      refine ⟨by rw [hC]; dsimp only; rw [hC2],
        by rw [hC]; dsimp only; rw [hC2]; rfl, ?_, ?_, ?_, ?_, ?_⟩
      · intro out1 hout1
        rw [hC] at hout1 ⊢
        cases hout1
        refine ⟨rfl, ?_, ?_, ?_⟩
        · dsimp only
          rw [hC2]
        · intro h; rw [hc] at h; cases h
        · intro _
          rw [hout]
          rfl
      · intro e1 he1
        rw [hC] at he1
        cases he1
      · intro _
        exact ⟨_, by rw [hC]⟩
      · intro _ ht
        have := ProgressBar.render_of_total_zero { p with current := p.total } hc ht
        rw [hr] at this
        cases this
      · intro h; rw [hc] at h; cases h

theorem C11_complete_idempotent_witness :
    (NewProgressBar 10).Complete.2 =
        .ok [BarOutput.line 10 10, BarOutput.newline] ∧
      (NewProgressBar 10).Complete.1.complete = true ∧
      (NewProgressBar 10).Complete.1.Complete = ((NewProgressBar 10).Complete.1, .ok []) ∧
      (NewProgressBar 0).Complete =
        ({ NewProgressBar 0 with current := 0 }, .error "strings: negative Repeat count") ∧
      ((NewProgressBar 10).Complete.1.applyAll
          [BarOp.set 3, BarOp.increment 1, BarOp.complete]).complete = true ∧
      (NewProgressBar 10).Complete.1.runAll [BarOp.set 3, BarOp.increment 1, BarOp.complete] =
        .ok ((NewProgressBar 10).Complete.1.applyAll
          [BarOp.set 3, BarOp.increment 1, BarOp.complete], []) :=
  ⟨rfl,
    ((C11_complete_idempotent (NewProgressBar 10)).2.2.1 _ rfl).1,
    ((C11_complete_idempotent (NewProgressBar 10)).2.2.1 _ rfl).2.1,
    (C11_complete_idempotent (NewProgressBar 0)).2.2.2.2.2.1 rfl rfl,
    ((C11_complete_idempotent (NewProgressBar 10).Complete.1).2.2.2.2.2.2 rfl _).1,
    ((C11_complete_idempotent (NewProgressBar 10).Complete.1).2.2.2.2.2.2 rfl _).2⟩

end Avifconv

namespace Avifconv

/-! ## The filled width of the bar -/

/-- With a positive `total` and `current` at or below `-total`, the filled
width is negative, whatever the rounding. -/
theorem filledFloat_neg (c t : ℤ) (ht : 0 < t) (hc : c ≤ -t) : filledFloat 50 c t < 0 := by
  have htq : (0 : ℚ) < t := by exact_mod_cast ht
  have htne : (t : ℚ) ≠ 0 := ne_of_gt htq
  have hr : (c : ℚ) / t ≤ -1 := by
    rw [div_le_iff₀ htq]
    have : (c : ℚ) ≤ -(t : ℚ) := by exact_mod_cast hc
    linarith
  have e50 : roundFloat64 ((50 : ℤ) : ℚ) = ((50 : ℤ) : ℚ) := roundFloat64_intCast 50 (by decide)
  obtain ⟨d1, hd1, e1⟩ := roundFloat64_rel (c : ℚ)
  obtain ⟨d2, hd2, e2⟩ := roundFloat64_rel (t : ℚ)
  obtain ⟨d3, hd3, e3⟩ := roundFloat64_rel (roundFloat64 ((50 : ℤ) : ℚ) * roundFloat64 (c : ℚ))
  obtain ⟨d4, hd4, e4⟩ := roundFloat64_rel
    (roundFloat64 (roundFloat64 ((50 : ℤ) : ℚ) * roundFloat64 (c : ℚ)) / roundFloat64 (t : ℚ))
  have heps : (1 : ℚ) / 2 ^ 53 ≤ 1 / 1000 := by norm_num
  rw [abs_le] at hd1 hd2 hd3 hd4
  have x1lo : (999 : ℚ) / 1000 ≤ 1 + d1 := by linarith
  have x2hi : 1 + d2 ≤ (1001 : ℚ) / 1000 := by linarith
  have x2pos : (0 : ℚ) < 1 + d2 := by linarith
  have x3lo : (999 : ℚ) / 1000 ≤ 1 + d3 := by linarith
  have x4lo : (999 : ℚ) / 1000 ≤ 1 + d4 := by linarith
  have hQ : roundFloat64
      (roundFloat64 (roundFloat64 ((50 : ℤ) : ℚ) * roundFloat64 (c : ℚ)) / roundFloat64 (t : ℚ)) =
      50 * ((c : ℚ) / t) * ((1 + d1) * (1 + d3) * (1 + d4) / (1 + d2)) := by
    rw [e4, e3, e2, e1, e50]
    push_cast
    field_simp
    ring
  have hK : (999 / 1000 : ℚ) * (999 / 1000) * (999 / 1000) / (1001 / 1000) ≤
      (1 + d1) * (1 + d3) * (1 + d4) / (1 + d2) := by
    gcongr
  have hK0 : (0 : ℚ) ≤ (1 + d1) * (1 + d3) * (1 + d4) / (1 + d2) :=
    le_trans (by norm_num) hK
  have hQneg : roundFloat64
      (roundFloat64 (roundFloat64 ((50 : ℤ) : ℚ) * roundFloat64 (c : ℚ)) / roundFloat64 (t : ℚ)) ≤
      -49 := by
    rw [hQ]
    have h1 : 50 * ((c : ℚ) / t) ≤ -50 := by linarith
    calc 50 * ((c : ℚ) / t) * ((1 + d1) * (1 + d3) * (1 + d4) / (1 + d2))
        ≤ -50 * ((1 + d1) * (1 + d3) * (1 + d4) / (1 + d2)) :=
          mul_le_mul_of_nonneg_right h1 hK0
      _ ≤ -50 * ((999 / 1000 : ℚ) * (999 / 1000) * (999 / 1000) / (1001 / 1000)) := by
          linarith
      _ ≤ -49 := by norm_num
  unfold filledFloat
  rw [if_neg (ne_of_gt ht)]
  unfold float64ToInt
  split
  · unfold truncate
    rw [if_neg (by linarith)]
    have : ⌈roundFloat64 (roundFloat64 (roundFloat64 ((50 : ℤ) : ℚ) * roundFloat64 (c : ℚ)) /
        roundFloat64 (t : ℚ))⌉ ≤ -49 := Int.ceil_le.mpr (by exact_mod_cast hQneg)
    omega
  · decide

/-- A bar whose position lies at or below the negative of a positive total
panics in `render`, unless it is complete. -/
theorem ProgressBar.render_of_far_below (p : ProgressBar) (hw : p.width = 50)
    (hc : p.complete = false) (ht : 0 < p.total) (hcur : p.current ≤ -p.total) :
    p.render = .error "strings: negative Repeat count" := by
  have hneg : p.repeatCounts.1 < 0 := by
    show p.filled < 0
    rw [ProgressBar.filled_eq_filledFloat, hw]
    exact filledFloat_neg _ _ ht hcur
  unfold ProgressBar.render
  rw [if_neg (by simp [hc]), if_pos (Or.inl hneg)]

/-- A call with an argument that is not negative and does not make `current`
wrap keeps the position between zero and the total. -/
theorem ProgressBar.apply_between (p : ProgressBar) (op : BarOp) (ht : isInt64 p.total)
    (hb : p.between) (hop : op.isInt64 ∧ op.nonNeg p.total) : (p.apply op).between := by
  obtain ⟨ht1, ht2⟩ := ht
  unfold maxInt64 at ht2
  cases op with
  | increment n =>
    obtain ⟨⟨-, hn2⟩, hn0, hn1⟩ := hop
    unfold maxInt64 at hn1 hn2
    have hwrap : wrapInt64 (p.current + n) = p.current + n := by
      rcases hb with ⟨h1, h2⟩ | ⟨h1, h2⟩
      · exact wrapInt64_of_inRange _ (by omega) (by unfold maxInt64; omega)
      · exact wrapInt64_of_inRange _ (by omega) (by unfold maxInt64; omega)
    simp only [ProgressBar.apply, ProgressBar.Increment, hwrap]
    split
    · rcases le_total 0 p.total with h | h
      · exact Or.inl ⟨h, le_refl _⟩
      · exact Or.inr ⟨le_refl _, h⟩
    · rename_i hgt
      have hle : p.current + n ≤ p.total := not_lt.mp hgt
      rcases hb with ⟨h1, h2⟩ | ⟨h1, h2⟩
      · exact Or.inl ⟨by show 0 ≤ p.current + n; omega, hle⟩
      · exact Or.inr ⟨by show p.total ≤ p.current + n; omega, by show p.current + n ≤ 0; omega⟩
  | set v =>
    have hv : 0 ≤ v := hop.2
    simp only [ProgressBar.apply, ProgressBar.Set]
    split
    · rcases le_total 0 p.total with h | h
      · exact Or.inl ⟨h, le_refl _⟩
      · exact Or.inr ⟨le_refl _, h⟩
    · rename_i hgt
      have hle : v ≤ p.total := not_lt.mp hgt
      exact Or.inl ⟨hv, hle⟩
  | complete =>
    show p.Complete.1.between
    unfold ProgressBar.between
    rw [ProgressBar.Complete_current, ProgressBar.Complete_total]
    split
    · exact hb
    · rcases le_total 0 p.total with h | h
      · exact Or.inl ⟨h, le_refl _⟩
      · exact Or.inr ⟨le_refl _, h⟩

/-- On a bar of width 50 with a total that is not zero and a position between
zero and the total, such a call does not panic. -/
theorem ProgressBar.result_ok (p : ProgressBar) (op : BarOp) (hw : p.width = 50)
    (ht : isInt64 p.total) (h0 : p.total ≠ 0) (hb : p.between)
    (hop : op.isInt64 ∧ op.nonNeg p.total) : ∃ out, p.result op = .ok out := by
  have hb' := ProgressBar.apply_between p op ht hb hop
  have hw' : (p.apply op).width = 50 := by rw [ProgressBar.apply_width]; exact hw
  have h0' : (p.apply op).total ≠ 0 := by rw [ProgressBar.apply_total]; exact h0
  have hr := (ProgressBar.render_ok (p.apply op) hw' h0' hb').2.2.2.2
  cases op with
  | increment n => exact ⟨_, hr⟩
  | set v => exact ⟨_, hr⟩
  | complete =>
    show ∃ out, p.Complete.2 = .ok out
    cases hc : p.complete with
    | true => exact ⟨[], by rw [ProgressBar.Complete_of_complete p hc]⟩
    | false =>
      have hbt : ({ p with current := p.total } : ProgressBar).between := by
        rcases le_total 0 p.total with h | h
        · exact Or.inl ⟨h, le_refl _⟩
        · exact Or.inr ⟨le_refl _, h⟩
      have hrt := (ProgressBar.render_ok { p with current := p.total } hw h0 hbt).2.2.2.2
      exact ⟨_, by rw [ProgressBar.Complete_of_ok p hc _ hrt]⟩

/-- A sequence of such calls runs to its end without a panic and keeps the
position between zero and the total. -/
theorem ProgressBar.runAll_ok (p : ProgressBar) (ops : List BarOp) (hw : p.width = 50)
    (ht : isInt64 p.total) (h0 : p.total ≠ 0) (hb : p.between)
    (hops : ∀ op ∈ ops, op.isInt64 ∧ op.nonNeg p.total) :
    (p.applyAll ops).between ∧ ∃ out, p.runAll ops = .ok (p.applyAll ops, out) := by
  induction ops generalizing p with
  | nil => exact ⟨hb, [], rfl⟩
  | cons op ops ih =>
    have hop := hops op (List.mem_cons_self _ _)
    obtain ⟨out, hout⟩ := ProgressBar.result_ok p op hw ht h0 hb hop
    have htot := ProgressBar.apply_total p op
    obtain ⟨hb', out', hout'⟩ := ih (p.apply op)
      (by rw [ProgressBar.apply_width]; exact hw) (by rw [htot]; exact ht)
      (by rw [htot]; exact h0) (ProgressBar.apply_between p op ht hb hop)
      (fun o ho => by rw [htot]; exact hops o (List.mem_cons_of_mem _ ho))
    refine ⟨hb', out ++ out', ?_⟩
    simp only [ProgressBar.runAll, hout, hout']
    rfl

/-- C12, the failing inputs. On a fresh bar of total 10 the call `Set(-1)`
enters `render` with `current = -1`: `filled = int(50 * -1 / 10) = -5`, the
counts handed to `strings.Repeat` are `-5` and `55`, and the call panics;
`Increment(-1)` does the same. On a fresh bar of total 0 the quotient is
`0 / 0`, its conversion is negative, and `Complete()` and `Increment(1)`
panic. On a fresh bar of the largest total, `Increment(1)` and then
`Increment(maxInt64)`, both with arguments that are not negative, wrap
`current` around to `-2 ^ 63`, and the second call panics. -/
theorem C12_counterexample :
    ((NewProgressBar 10).apply (.set (-1))).current = -1 ∧
      ((NewProgressBar 10).apply (.set (-1))).filled = -5 ∧
      ((NewProgressBar 10).apply (.set (-1))).repeatCounts = (-5, 55) ∧
      (NewProgressBar 10).result (.set (-1)) = .error "strings: negative Repeat count" ∧
      (NewProgressBar 10).result (.increment (-1)) = .error "strings: negative Repeat count" ∧
      (NewProgressBar 0).result .complete = .error "strings: negative Repeat count" ∧
      (NewProgressBar 0).result (.increment 1) = .error "strings: negative Repeat count" ∧
      (NewProgressBar 0).runAll [.complete] = .error "strings: negative Repeat count" ∧
      ((NewProgressBar maxInt64).apply (.increment 1)).current = 1 ∧
      (((NewProgressBar maxInt64).apply (.increment 1)).apply (.increment maxInt64)).current =
        -2 ^ 63 ∧
      ((NewProgressBar maxInt64).apply (.increment 1)).result (.increment maxInt64) =
        .error "strings: negative Repeat count" := by
  refine ⟨rfl, rfl, rfl, rfl, rfl, rfl, rfl, rfl, by decide, by decide, ?_⟩
  exact ProgressBar.render_of_far_below
    (((NewProgressBar maxInt64).apply (.increment 1)).Increment maxInt64).1
    (by decide) (by decide) (by decide) (by decide)

/-- C12, amended. On every bar of width 50 whose total is not zero and whose
position lies between zero and the total, `render` computes a filled width
with `0 <= filled <= width`, both counts handed to `strings.Repeat` are not
negative and `render` returns, the `float64` arithmetic of the source being
taken with its rounding. Every state reached from `NewProgressBar(total)`,
for an `int64` total of either sign that is not zero, through `Complete()`,
`Set(value)` with `value >= 0` and `Increment(n)` with
`0 <= n <= maxInt64 - total` is such a state, and none of the calls panics. -/
theorem C12_render_counts (total : Int) (ops : List BarOp) (ht : isInt64 total)
    (h0 : total ≠ 0) (hops : ∀ op ∈ ops, op.isInt64 ∧ op.nonNeg total) :
    (∀ p : ProgressBar, p.width = 50 → p.total ≠ 0 → p.between →
        0 ≤ p.filled ∧ p.filled ≤ p.width ∧ 0 ≤ p.repeatCounts.1 ∧ 0 ≤ p.repeatCounts.2 ∧
          p.renderPanics = false) ∧
      ((NewProgressBar total).applyAll ops).width = 50 ∧
      ((NewProgressBar total).applyAll ops).total = total ∧
      ((NewProgressBar total).applyAll ops).between ∧
      0 ≤ ((NewProgressBar total).applyAll ops).filled ∧
      ((NewProgressBar total).applyAll ops).filled ≤ ((NewProgressBar total).applyAll ops).width ∧
      0 ≤ ((NewProgressBar total).applyAll ops).repeatCounts.1 ∧
      0 ≤ ((NewProgressBar total).applyAll ops).repeatCounts.2 ∧
      ((NewProgressBar total).applyAll ops).renderPanics = false ∧
      ∃ out, (NewProgressBar total).runAll ops = .ok ((NewProgressBar total).applyAll ops, out) := by
  have hstate : ∀ p : ProgressBar, p.width = 50 → p.total ≠ 0 → p.between →
      0 ≤ p.filled ∧ p.filled ≤ p.width ∧ 0 ≤ p.repeatCounts.1 ∧ 0 ≤ p.repeatCounts.2 ∧
        p.renderPanics = false := by
    intro p hw hp hb
    obtain ⟨h1, h2, h3, h4, h5⟩ := ProgressBar.render_ok p hw hp hb
    refine ⟨h1, h2, h3, h4, ?_⟩
    unfold ProgressBar.renderPanics
    rw [h5]
  have hb0 : (NewProgressBar total).between := by
    rcases le_total 0 total with h | h
    · exact Or.inl ⟨le_refl _, h⟩
    · exact Or.inr ⟨h, le_refl _⟩
  obtain ⟨hb, hrun⟩ := ProgressBar.runAll_ok (NewProgressBar total) ops rfl ht h0 hb0 hops
  have hw : ((NewProgressBar total).applyAll ops).width = 50 := by
    rw [ProgressBar.applyAll_width]; rfl
  have htot : ((NewProgressBar total).applyAll ops).total = total := by
    rw [ProgressBar.applyAll_total]; rfl
  obtain ⟨h1, h2, h3, h4, h5⟩ := hstate _ hw (by rw [htot]; exact h0) hb
  exact ⟨hstate, hw, htot, hb, h1, h2, h3, h4, h5, hrun⟩

theorem C12_render_counts_witness :
    ((NewProgressBar 3).applyAll [BarOp.increment 1, BarOp.set 2, BarOp.complete]).filled = 50 ∧
      0 ≤ ((NewProgressBar 3).applyAll
        [BarOp.increment 1, BarOp.set 2, BarOp.complete]).repeatCounts.2 ∧
      ∃ out, (NewProgressBar 3).runAll [BarOp.increment 1, BarOp.set 2, BarOp.complete] =
        .ok ((NewProgressBar 3).applyAll [BarOp.increment 1, BarOp.set 2, BarOp.complete], out) :=
  ⟨rfl,
    (C12_render_counts 3 [BarOp.increment 1, BarOp.set 2, BarOp.complete]
      (by unfold isInt64 maxInt64; omega) (by decide)
      (by
        intro op hop
        simp only [List.mem_cons, List.mem_singleton, List.not_mem_nil, or_false] at hop
        rcases hop with rfl | rfl | rfl
        · simp only [BarOp.isInt64, BarOp.nonNeg, maxInt64]; omega
        · simp only [BarOp.isInt64, BarOp.nonNeg, maxInt64]; omega
        · exact ⟨trivial, trivial⟩)).2.2.2.2.2.2.2.1,
    (C12_render_counts 3 [BarOp.increment 1, BarOp.set 2, BarOp.complete]
      (by unfold isInt64 maxInt64; omega) (by decide)
      (by
        intro op hop
        simp only [List.mem_cons, List.mem_singleton, List.not_mem_nil, or_false] at hop
        rcases hop with rfl | rfl | rfl
        · simp only [BarOp.isInt64, BarOp.nonNeg, maxInt64]; omega
        · simp only [BarOp.isInt64, BarOp.nonNeg, maxInt64]; omega
        · exact ⟨trivial, trivial⟩)).2.2.2.2.2.2.2.2.2⟩

end Avifconv

namespace Avifconv

/-! ## The pool: steps -/

theorem step_trans (process : Job → Outcome) (s t : PoolState) (a : Actor)
    (h : step process s a = some t) : Trans process s a t := by
  unfold step at h
  split at h
  · cases h
  rename_i hp
  cases a with
  | producer =>
    simp only [stepProducer] at h
    split at h
    · rename_i hrun
      split at h
      · rename_i hrem
        cases h
        exact Trans.close s hrun hrem hp
      · rename_i file rest hrem
        split at h
        · rename_i hroom
          cases h
          exact Trans.send s file rest hrun hrem hroom hp
        · cases h
    · cases h
  | producerDone =>
    simp only [stepProducerDone] at h
    split at h
    · rename_i hrc
      split at h
      · cases h
      · rename_i file rest hrem
        cases h
        exact Trans.producerDone s file rest hrc.1 hrc.2 hrem hp
    · cases h
  | worker w =>
    simp only [stepWorker] at h
    split at h
    · cases h
    · cases h
    · rename_i hw
      split at h
      · rename_i file rest hbuf
        cases h
        exact Trans.recv s w file rest hw hbuf hp
      · rename_i hbuf
        split at h
        · rename_i hclosed
          cases h
          exact Trans.leave s w hw hbuf hclosed hp
        · rename_i hopen
          split at h
          · rename_i hcr
            split at h
            · rename_i file rest hrem
              cases h
              exact Trans.rendezvous s w file rest hw hbuf (by simpa using hopen) hcr.1 hcr.2 hrem
                hp
            · cases h
          · cases h
    · rename_i file hw
      split at h
      · rename_i hc
        cases h
        exact Trans.abandon s w file hw hc hp
      · rename_i hc
        cases h
        exact Trans.start s w file hw (by simpa using hc) hp
    · rename_i file hw
      split at h
      · rename_i out hok
        cases h
        exact Trans.finish s w file hw out hok hp
      · rename_i e herr
        cases h
        exact Trans.finishPanic s w file hw e herr hp
  | main =>
    simp only [stepMain] at h
    split at h
    · rename_i hm
      split at h
      · rename_i hall
        cases h
        exact Trans.waited s hm hall hp
      · cases h
    · rename_i hm
      split at h
      · rename_i out hok
        cases h
        exact Trans.complete s hm out hok hp
      · rename_i e herr
        cases h
        exact Trans.completePanic s hm e herr hp
    · cases h
  | cancel =>
    simp only at h
    split at h
    · cases h
    · rename_i hc
      cases h
      exact Trans.cancel s (by simpa using hc) hp

theorem trans_step (process : Job → Outcome) (s t : PoolState) (a : Actor)
    (h : Trans process s a t) : step process s a = some t := by
  cases h <;> simp_all [step, stepProducer, stepProducerDone, stepWorker, stepMain]

end Avifconv

namespace Avifconv

/-! ## The pool: every run is finite -/

/-- Replacing the entry of one worker changes a sum over the workers by the
difference of the two entries. -/
theorem sum_map_set {M : Type} [AddCommMonoid M] (f : WorkerPc → M) (ws : List WorkerPc)
    (w : Nat) (old new : WorkerPc) (hw : ws[w]? = some old) :
    ((ws.set w new).map f).sum + f old = (ws.map f).sum + f new := by
  induction ws generalizing w with
  | nil => simp at hw
  | cons a ws ih =>
    cases w with
    | zero =>
      simp only [List.getElem?_cons_zero, Option.some.injEq] at hw
      subst hw
      simp only [List.set_cons_zero, List.map_cons, List.sum_cons]
      abel
    | succ w =>
      simp only [List.getElem?_cons_succ] at hw
      simp only [List.set_cons_succ, List.map_cons, List.sum_cons]
      rw [add_assoc, ih w hw, add_assoc]

theorem weight_set (ws : List WorkerPc) (w : Nat) (old new : WorkerPc)
    (hw : ws[w]? = some old) :
    ((ws.set w new).map WorkerPc.weight).sum + old.weight =
      (ws.map WorkerPc.weight).sum + new.weight :=
  sum_map_set WorkerPc.weight ws w old new hw

/-- A pool that takes a step has not panicked. -/
theorem Trans.alive {process : Job → Outcome} {s t : PoolState} {a : Actor}
    (h : Trans process s a t) : s.panicked = none := by
  cases h <;> assumption

theorem measure_decreases (process : Job → Outcome) (s t : PoolState) (a : Actor)
    (h : Trans process s a t) : measure t < measure s := by
  have hp := h.alive
  cases h with
  | close hrun hrem => simp [measure, hrun, hrem, hp]
  | send file rest hrun hrem hroom => simp [measure, hrun, hrem, hp]; omega
  | producerDone file rest hrun hc hrem => simp [measure, hrun, hrem, hc, hp]
  | recv w file rest hw hbuf =>
    have := weight_set s.workers w _ (.got file) hw
    simp only [WorkerPc.weight] at this
    simp [measure, hbuf, hp, -List.map_set]; omega
  | leave w hw hbuf hclosed =>
    have := weight_set s.workers w _ .exited hw
    simp only [WorkerPc.weight] at this
    simp [measure, hbuf, hp, -List.map_set]; omega
  | rendezvous w file rest hw hbuf hopen hcap hrun hrem =>
    have := weight_set s.workers w _ (.got file) hw
    simp only [WorkerPc.weight] at this
    simp [measure, hbuf, hrun, hrem, hp, -List.map_set]; omega
  | abandon w file hw hc =>
    have := weight_set s.workers w _ .exited hw
    simp only [WorkerPc.weight] at this
    simp [measure, hc, hp, -List.map_set]; omega
  | start w file hw hc =>
    have := weight_set s.workers w _ (.busy file) hw
    simp only [WorkerPc.weight] at this
    simp [measure, hc, hp, -List.map_set]; omega
  | finish w file hw out hok =>
    have := weight_set s.workers w _ .idle hw
    simp only [WorkerPc.weight] at this
    simp [measure, hp, -List.map_set]; omega
  | finishPanic w file hw e herr =>
    have := weight_set s.workers w _ .idle hw
    simp only [WorkerPc.weight] at this
    simp [measure, hp, -List.map_set]; omega
  | waited hm hall => simp [measure, hm, hp, MainPc.weight]
  | complete hm out hok => simp [measure, hm, hp, MainPc.weight]
  | completePanic hm e herr => simp [measure, hm, hp, MainPc.weight]
  | cancel hc => simp [measure, hc, hp]

end Avifconv

namespace Avifconv

/-! ## The pool: the invariant -/

theorem inFlight_set (ws : List WorkerPc) (w : Nat) (old new : WorkerPc)
    (hw : ws[w]? = some old) :
    inFlight (ws.set w new) + old.holding = inFlight ws + new.holding :=
  sum_map_set WorkerPc.holding ws w old new hw

theorem mem_of_getElem?_eq (ws : List WorkerPc) (w : Nat) (pc : WorkerPc)
    (hw : ws[w]? = some pc) : pc ∈ ws := by
  rw [List.getElem?_eq_some] at hw
  obtain ⟨hlt, rfl⟩ := hw
  exact List.getElem_mem hlt

theorem exited_mem_set (ws : List WorkerPc) (w : Nat) (new : WorkerPc)
    (hne : new ≠ WorkerPc.exited) (h : WorkerPc.exited ∈ ws.set w new) :
    WorkerPc.exited ∈ ws := by
  rcases List.mem_or_eq_of_mem_set h with h | h
  · exact h
  · exact absurd h.symm hne

theorem applyOutcomes_snoc (process : Job → Outcome) (stats0 : ProcessStats)
    (finished : List Job) (file : Job) :
    applyOutcomes stats0 ((finished ++ [file]).map process) =
      workerCritical (applyOutcomes stats0 (finished.map process)) (process file) := by
  simp [applyOutcomes, List.foldl_append]

theorem inv_init (process : Job → Outcome) (numWorkers capacity : Nat) (files : List Job)
    (stats0 : ProcessStats) (ctxDone : Bool) :
    Inv process numWorkers files stats0 (initState numWorkers capacity files stats0 ctxDone) := by
  refine ⟨?_, ?_, ?_, ?_, ?_, ?_, ?_, ?_⟩
  · have : inFlight (List.replicate numWorkers WorkerPc.idle) = 0 := by
      induction numWorkers with
      | zero => rfl
      | succ n ih =>
        simp only [inFlight, List.replicate_succ, List.map_cons, List.sum_cons] at ih ⊢
        rw [ih]; rfl
    simp [initState, this]
  · rfl
  · simp [initState]
  · intro _; rfl
  · intro _ h; simp [initState] at h
  · intro h; simp [initState] at h
  · intro _ h
    simp only [initState] at h
    have := List.eq_of_mem_replicate h
    cases this
  · intro h; simp [initState] at h

end Avifconv

namespace Avifconv

theorem not_all_exited (s : PoolState) (w : Nat) (pc : WorkerPc) (hw : s.workers[w]? = some pc)
    (hpc : pc ≠ WorkerPc.exited) (hall : ∀ q ∈ s.workers, q = WorkerPc.exited) : False :=
  hpc (hall pc (mem_of_getElem?_eq _ _ _ hw))

theorem inv_step (process : Job → Outcome) (numWorkers : Nat) (files : List Job)
    (stats0 : ProcessStats) (s t : PoolState) (a : Actor)
    (hinv : Inv process numWorkers files stats0 s) (h : Trans process s a t) :
    Inv process numWorkers files stats0 t := by
  obtain ⟨hcons, hrec, hsize, hkept, hstop, hlast, hdrain, hjoin⟩ := hinv
  cases h with
  | close hrun hrem =>
    refine ⟨hcons, hrec, hsize, hkept, fun _ _ => rfl, fun _ => ⟨hrem, rfl⟩, ?_, hjoin⟩
    intro hc hex
    exact ⟨rfl, (hdrain hc hex).2⟩
  | send file rest hrun hrem hroom =>
    have hopen : s.jobs.closed ≠ true := fun hcl => by
      have := (hlast hcl).2; rw [hrun] at this; cases this
    refine ⟨?_, hrec, hsize, hkept, ?_, ?_, ?_, hjoin⟩
    · show (s.finished : Multiset Job) + inFlight s.workers +
        ((s.jobs.buf ++ [file] : List Job) : Multiset Job) + (rest : Multiset Job) +
        (s.dropped : Multiset Job) = (files : Multiset Job)
      rw [← hcons, hrem, ← Multiset.cons_coe, ← Multiset.singleton_add, ← Multiset.coe_add,
        Multiset.coe_singleton]
      abel
    · intro _ hr; rw [hrun] at hr; cases hr
    · intro hcl; exact absurd hcl hopen
    · intro hc hex; exact absurd (hdrain hc hex).1 hopen
  | producerDone file rest hrun hc hrem =>
    refine ⟨hcons, hrec, hsize, hkept, ?_, ?_, ?_, hjoin⟩
    · intro hc'; rw [hc] at hc'; cases hc'
    · intro hcl; have := (hlast hcl).2; rw [hrun] at this; cases this
    · intro hc'; rw [hc] at hc'; cases hc'
  | recv w file rest hw hbuf =>
    have hfl := inFlight_set s.workers w _ (.got file) hw
    simp only [WorkerPc.holding, add_zero] at hfl
    refine ⟨?_, hrec, ?_, hkept, hstop, hlast, ?_, ?_⟩
    · show (s.finished : Multiset Job) + inFlight (s.workers.set w (.got file)) +
        (rest : Multiset Job) + (s.producer.remaining : Multiset Job) +
        (s.dropped : Multiset Job) = (files : Multiset Job)
      rw [← hcons, hbuf, hfl, ← Multiset.cons_coe, ← Multiset.singleton_add]
      abel
    · simpa using hsize
    · intro hc hex
      have := (hdrain hc (exited_mem_set _ _ _ (by simp) hex)).2
      rw [hbuf] at this; cases this
    · intro hm
      exact (not_all_exited s w _ hw (by simp) (hjoin hm)).elim
  | leave w hw hbuf hclosed =>
    have hfl := inFlight_set s.workers w _ .exited hw
    simp only [WorkerPc.holding, add_zero] at hfl
    refine ⟨?_, hrec, ?_, hkept, hstop, hlast, ?_, ?_⟩
    · show (s.finished : Multiset Job) + inFlight (s.workers.set w .exited) +
        (s.jobs.buf : Multiset Job) + (s.producer.remaining : Multiset Job) +
        (s.dropped : Multiset Job) = (files : Multiset Job)
      rw [hfl, hcons]
    · simpa using hsize
    · intro _ _; exact ⟨hclosed, hbuf⟩
    · intro hm
      exact (not_all_exited s w _ hw (by simp) (hjoin hm)).elim
  | rendezvous w file rest hw hbuf hopen hcap hrun hrem =>
    have hfl := inFlight_set s.workers w _ (.got file) hw
    simp only [WorkerPc.holding, add_zero] at hfl
    refine ⟨?_, hrec, ?_, hkept, ?_, ?_, ?_, ?_⟩
    · show (s.finished : Multiset Job) + inFlight (s.workers.set w (.got file)) +
        (s.jobs.buf : Multiset Job) + (rest : Multiset Job) +
        (s.dropped : Multiset Job) = (files : Multiset Job)
      rw [← hcons, hrem, hfl, ← Multiset.cons_coe, ← Multiset.singleton_add]
      abel
    · simpa using hsize
    · intro _ hr; rw [hrun] at hr; cases hr
    · intro hcl; rw [hopen] at hcl; cases hcl
    · intro hc hex
      have := (hdrain hc (exited_mem_set _ _ _ (by simp) hex)).1
      rw [hopen] at this; cases this
    · intro hm
      exact (not_all_exited s w _ hw (by simp) (hjoin hm)).elim
  | abandon w file hw hc =>
    have hfl := inFlight_set s.workers w _ .exited hw
    simp only [WorkerPc.holding, add_zero] at hfl
    refine ⟨?_, hrec, ?_, ?_, ?_, hlast, ?_, ?_⟩
    · show (s.finished : Multiset Job) + inFlight (s.workers.set w .exited) +
        (s.jobs.buf : Multiset Job) + (s.producer.remaining : Multiset Job) +
        ((s.dropped ++ [file] : List Job) : Multiset Job) = (files : Multiset Job)
      rw [← hcons, ← hfl, ← Multiset.coe_add, ← Multiset.coe_singleton]
      abel
    · simpa using hsize
    · intro hc'; rw [hc] at hc'; cases hc'
    · intro hc'; rw [hc] at hc'; cases hc'
    · intro hc'; rw [hc] at hc'; cases hc'
    · intro hm
      exact (not_all_exited s w _ hw (by simp) (hjoin hm)).elim
  | start w file hw hc =>
    have hfl := inFlight_set s.workers w _ (.busy file) hw
    simp only [WorkerPc.holding] at hfl
    have hfl' := add_right_cancel hfl
    refine ⟨?_, hrec, ?_, hkept, hstop, hlast, ?_, ?_⟩
    · show (s.finished : Multiset Job) + inFlight (s.workers.set w (.busy file)) +
        (s.jobs.buf : Multiset Job) + (s.producer.remaining : Multiset Job) +
        (s.dropped : Multiset Job) = (files : Multiset Job)
      rw [hfl', hcons]
    · simpa using hsize
    · intro hc' hex
      exact hdrain hc' (exited_mem_set _ _ _ (by simp) hex)
    · intro hm
      exact (not_all_exited s w _ hw (by simp) (hjoin hm)).elim
  | finish w file hw =>
    have hfl := inFlight_set s.workers w _ .idle hw
    simp only [WorkerPc.holding, add_zero] at hfl
    refine ⟨?_, ?_, ?_, hkept, hstop, hlast, ?_, ?_⟩
    · show ((s.finished ++ [file] : List Job) : Multiset Job) +
        inFlight (s.workers.set w .idle) +
        (s.jobs.buf : Multiset Job) + (s.producer.remaining : Multiset Job) +
        (s.dropped : Multiset Job) = (files : Multiset Job)
      rw [← hcons, ← hfl, ← Multiset.coe_add, ← Multiset.coe_singleton]
      abel
    · show workerCritical s.stats (process file) =
        applyOutcomes stats0 ((s.finished ++ [file]).map process)
      rw [applyOutcomes_snoc, hrec]
    · simpa using hsize
    · intro hc' hex
      exact hdrain hc' (exited_mem_set _ _ _ (by simp) hex)
    · intro hm
      exact (not_all_exited s w _ hw (by simp) (hjoin hm)).elim
  | finishPanic w file hw e herr =>
    have hfl := inFlight_set s.workers w _ .idle hw
    simp only [WorkerPc.holding, add_zero] at hfl
    refine ⟨?_, ?_, ?_, hkept, hstop, hlast, ?_, ?_⟩
    · show ((s.finished ++ [file] : List Job) : Multiset Job) +
        inFlight (s.workers.set w .idle) +
        (s.jobs.buf : Multiset Job) + (s.producer.remaining : Multiset Job) +
        (s.dropped : Multiset Job) = (files : Multiset Job)
      rw [← hcons, ← hfl, ← Multiset.coe_add, ← Multiset.coe_singleton]
      abel
    · show workerCritical s.stats (process file) =
        applyOutcomes stats0 ((s.finished ++ [file]).map process)
      rw [applyOutcomes_snoc, hrec]
    · simpa using hsize
    · intro hc' hex
      exact hdrain hc' (exited_mem_set _ _ _ (by simp) hex)
    · intro hm
      exact (not_all_exited s w _ hw (by simp) (hjoin hm)).elim
  | waited hm hall =>
    refine ⟨hcons, hrec, hsize, hkept, hstop, hlast, hdrain, ?_⟩
    intro _ pc hpc
    rw [List.all_eq_true] at hall
    have := hall pc hpc
    cases pc <;> simp_all [WorkerPc.isExited]
  | complete hm =>
    refine ⟨hcons, hrec, hsize, hkept, hstop, hlast, hdrain, ?_⟩
    intro _
    exact hjoin (by rw [hm]; simp)
  | completePanic hm e herr =>
    refine ⟨hcons, hrec, hsize, hkept, hstop, hlast, hdrain, ?_⟩
    intro _
    exact hjoin (by rw [hm]; simp)
  | cancel hc =>
    refine ⟨hcons, hrec, hsize, ?_, ?_, hlast, ?_, hjoin⟩
    · intro h; cases h
    · intro h; cases h
    · intro h; cases h

end Avifconv

namespace Avifconv

/-! ## The pool: the bar and panics -/

/-- While a worker is busy with a file, fewer completions are recorded than
there are files. -/
theorem finished_length_lt_of_busy (process : Job → Outcome) (numWorkers : Nat)
    (files : List Job) (stats0 : ProcessStats) (s : PoolState)
    (hinv : Inv process numWorkers files stats0 s) (w : Nat) (file : Job)
    (hw : s.workers[w]? = some (.busy file)) : s.finished.length + 1 ≤ files.length := by
  have hfl := inFlight_set s.workers w _ .idle hw
  simp only [WorkerPc.holding, add_zero] at hfl
  have h := congrArg Multiset.card hinv.conserve
  rw [← hfl] at h
  simp only [Multiset.card_add, Multiset.coe_card, Multiset.card_singleton] at h
  omega

theorem barInv_init (numWorkers capacity : Nat) (files : List Job) (stats0 : ProcessStats)
    (ctxDone : Bool) : BarInv files (initState numWorkers capacity files stats0 ctxDone) := by
  refine ⟨⟨rfl, rfl⟩, fun _ => rfl, ?_, ?_, fun _ _ => ⟨rfl, fun _ => ?_⟩⟩
  · intro h; simp [initState] at h
  · intro _ h; simp [initState] at h
  · simp [initState, NewProgressBar]

/-- The bar of a list that is not empty, anywhere between zero and its total,
renders without a panic. -/
theorem render_ok_of_shape (files : List Job) (p : ProgressBar)
    (hshape : p.total = files.length ∧ p.width = 50) (hne : files ≠ [])
    (n : Nat) (hn : n ≤ files.length) (hcur : p.current = n) :
    ∃ out, p.render = .ok out := by
  have ht : p.total ≠ 0 := by
    rw [hshape.1]
    have : files.length ≠ 0 := fun h => hne (List.length_eq_zero.mp h)
    exact_mod_cast this
  have hb : p.between := by
    left
    rw [hcur, hshape.1]
    exact ⟨Int.natCast_nonneg _, by exact_mod_cast hn⟩
  exact ⟨_, (ProgressBar.render_ok p hshape.2 ht hb).2.2.2.2⟩

theorem barInv_step (process : Job → Outcome) (numWorkers : Nat) (files : List Job)
    (stats0 : ProcessStats) (s t : PoolState) (a : Actor)
    (hinv : Inv process numWorkers files stats0 s) (hbar : BarInv files s)
    (h : Trans process s a t) : BarInv files t := by
  obtain ⟨hshape, hfresh, halive, hempty, hquiet⟩ := hbar
  cases h with
  | close hrun hrem hp => exact ⟨hshape, hfresh, halive, hempty, hquiet⟩
  | send file rest hrun hrem hroom hp => exact ⟨hshape, hfresh, halive, hempty, hquiet⟩
  | producerDone file rest hrun hc hrem hp => exact ⟨hshape, hfresh, halive, hempty, hquiet⟩
  | recv w file rest hw hbuf hp => exact ⟨hshape, hfresh, halive, hempty, hquiet⟩
  | leave w hw hbuf hclosed hp => exact ⟨hshape, hfresh, halive, hempty, hquiet⟩
  | rendezvous w file rest hw hbuf hopen hcap hrun hrem hp =>
    exact ⟨hshape, hfresh, halive, hempty, hquiet⟩
  | abandon w file hw hc hp => exact ⟨hshape, hfresh, halive, hempty, hquiet⟩
  | start w file hw hc hp => exact ⟨hshape, hfresh, halive, hempty, hquiet⟩
  | cancel hc hp => exact ⟨hshape, hfresh, halive, hempty, hquiet⟩
  | waited hm hall hp =>
    have hnr : s.main ≠ .returned := by rw [hm]; simp
    refine ⟨hshape, fun _ => hfresh hnr, ?_, ?_, fun hne hN => ⟨(hquiet hne hN).1, fun _ =>
      (hquiet hne hN).2 hnr⟩⟩
    · intro h; simp at h
    · intro _ h; simp at h
  | finish w file hw out hok hp =>
    have hmain : s.main = .waiting :=
      by_contra fun hm => not_all_exited s w _ hw (by simp) (hinv.joined hm)
    have hlen := finished_length_lt_of_busy process numWorkers files stats0 s hinv w file hw
    refine ⟨⟨(ProgressBar.apply_total s.bar (.increment 1)).trans hshape.1,
      (ProgressBar.apply_width s.bar (.increment 1)).trans hshape.2⟩, ?_, fun _ => hp, hempty, ?_⟩
    · intro hm
      show (s.bar.Increment 1).1.complete = false
      rw [ProgressBar.Increment_complete]
      exact hfresh hm
    · intro hne hN
      refine ⟨hp, fun hm => ?_⟩
      have hc : s.bar.current = (s.finished.length : Int) := (hquiet hne hN).2 hm
      show (s.bar.Increment 1).1.current = ((s.finished ++ [file]).length : Int)
      rw [ProgressBar.Increment_one_current s.bar (by rw [hc]; exact Int.natCast_nonneg _)
        (by rw [hc, hshape.1]; exact_mod_cast hlen) (by rw [hshape.1]; exact hN), hc]
      simp
  | finishPanic w file hw e herr hp =>
    have hmain : s.main = .waiting :=
      by_contra fun hm => not_all_exited s w _ hw (by simp) (hinv.joined hm)
    have hnr : s.main ≠ .returned := by rw [hmain]; simp
    have hlen := finished_length_lt_of_busy process numWorkers files stats0 s hinv w file hw
    refine ⟨⟨(ProgressBar.apply_total s.bar (.increment 1)).trans hshape.1,
      (ProgressBar.apply_width s.bar (.increment 1)).trans hshape.2⟩, ?_, ?_, hempty, ?_⟩
    · intro hm
      show (s.bar.Increment 1).1.complete = false
      rw [ProgressBar.Increment_complete]
      exact hfresh hm
    · intro hm
      exact (hnr hm).elim
    · intro hne hN
      exfalso
      have hc : s.bar.current = (s.finished.length : Int) := (hquiet hne hN).2 hnr
      have hcur : (s.bar.Increment 1).1.current = ((s.finished.length + 1 : Nat) : Int) := by
        rw [ProgressBar.Increment_one_current s.bar (by rw [hc]; exact Int.natCast_nonneg _)
          (by rw [hc, hshape.1]; exact_mod_cast hlen) (by rw [hshape.1]; exact hN), hc]
        simp
      obtain ⟨out, hout⟩ := render_ok_of_shape files (s.bar.Increment 1).1
        ⟨(ProgressBar.apply_total s.bar (.increment 1)).trans hshape.1,
          (ProgressBar.apply_width s.bar (.increment 1)).trans hshape.2⟩ hne _ hlen hcur
      have herr' : (s.bar.Increment 1).1.render = .error e := herr
      rw [hout] at herr'
      cases herr'
  | complete hm out hok hp =>
    have hnr : s.main ≠ .returned := by rw [hm]; simp
    refine ⟨⟨(ProgressBar.Complete_total s.bar).trans hshape.1,
      (ProgressBar.Complete_width s.bar).trans hshape.2⟩, fun h => absurd rfl h, fun _ => hp,
      ?_, fun _ _ => ⟨hp, fun h => absurd rfl h⟩⟩
    intro hf
    exfalso
    have ht : s.bar.total = 0 := by rw [hshape.1, hf]; rfl
    have hr := ProgressBar.render_of_total_zero { s.bar with current := s.bar.total }
      (hfresh hnr) ht
    rw [ProgressBar.Complete_of_error s.bar (hfresh hnr) _ hr] at hok
    cases hok
  | completePanic hm e herr hp =>
    have hnr : s.main ≠ .returned := by rw [hm]; simp
    have hcomp : s.bar.Complete.1.complete = false := by
      cases hr : ({ s.bar with current := s.bar.total } : ProgressBar).render with
      | error e1 =>
        rw [ProgressBar.Complete_of_error s.bar (hfresh hnr) e1 hr]
        exact hfresh hnr
      | ok out =>
        rw [ProgressBar.Complete_of_ok s.bar (hfresh hnr) out hr] at herr
        cases herr
    refine ⟨⟨(ProgressBar.Complete_total s.bar).trans hshape.1,
      (ProgressBar.Complete_width s.bar).trans hshape.2⟩, fun _ => hcomp, fun h => (hnr h).elim,
      hempty, ?_⟩
    intro hne hN
    exfalso
    obtain ⟨out, hout⟩ := render_ok_of_shape files { s.bar with current := s.bar.total }
      hshape hne files.length le_rfl hshape.1
    rw [ProgressBar.Complete_of_ok s.bar (hfresh hnr) out hout] at herr
    cases herr

end Avifconv

namespace Avifconv

/-! ## The order of the critical sections does not matter -/

theorem workerCritical_comm (s : ProcessStats) (a b : Outcome) :
    workerCritical (workerCritical s a) b = workerCritical (workerCritical s b) a := by
  unfold workerCritical
  cases a.err <;> cases b.err <;> simp
  all_goals repeat' constructor
  all_goals (rw [wrapInt64_add_left, wrapInt64_add_left]; congr 1; ring)

theorem applyOutcomes_perm (s : ProcessStats) (os os' : List Outcome) (h : os.Perm os') :
    applyOutcomes s os = applyOutcomes s os' :=
  List.Perm.foldl_eq' h (fun x _ y _ z => workerCritical_comm z x y) s

/-! ## The pool: runs -/

theorem exec_nil (process : Job → Outcome) (s : PoolState) : exec process [] s = s := rfl

theorem exec_cons (process : Job → Outcome) (a : Actor) (sched : List Actor) (s : PoolState) :
    exec process (a :: sched) s = exec process sched ((step process s a).getD s) := rfl

theorem exec_append (process : Job → Outcome) (l l' : List Actor) (s : PoolState) :
    exec process (l ++ l') s = exec process l' (exec process l s) := by
  simp [exec, List.foldl_append]

/-- Every state of every run satisfies the invariant. -/
theorem inv_exec (process : Job → Outcome) (numWorkers : Nat) (files : List Job)
    (stats0 : ProcessStats) (sched : List Actor) (s : PoolState)
    (hinv : Inv process numWorkers files stats0 s) :
    Inv process numWorkers files stats0 (exec process sched s) := by
  induction sched generalizing s with
  | nil => exact hinv
  | cons a sched ih =>
    rw [exec_cons]
    apply ih
    cases hstep : step process s a with
    | none => exact hinv
    | some t => exact inv_step process numWorkers files stats0 s t a hinv (step_trans _ _ _ _ hstep)

/-- Every state of every run satisfies the invariant of the bar. -/
theorem barInv_exec (process : Job → Outcome) (numWorkers : Nat) (files : List Job)
    (stats0 : ProcessStats) (sched : List Actor) (s : PoolState)
    (hinv : Inv process numWorkers files stats0 s) (hbar : BarInv files s) :
    BarInv files (exec process sched s) := by
  induction sched generalizing s with
  | nil => exact hbar
  | cons a sched ih =>
    rw [exec_cons]
    cases hstep : step process s a with
    | none => exact ih s hinv hbar
    | some t =>
      have ht := step_trans _ _ _ _ hstep
      exact ih t (inv_step process numWorkers files stats0 s t a hinv ht)
        (barInv_step process numWorkers files stats0 s t a hinv hbar ht)

/-- No step takes a cancellation back. -/
theorem cancelled_step (process : Job → Outcome) (s t : PoolState) (a : Actor)
    (h : Trans process s a t) (hc : s.cancelled = true) : t.cancelled = true := by
  cases h <;> first | exact hc | rfl

theorem cancelled_exec (process : Job → Outcome) (sched : List Actor) (s : PoolState)
    (hc : s.cancelled = true) : (exec process sched s).cancelled = true := by
  induction sched generalizing s with
  | nil => exact hc
  | cons a sched ih =>
    rw [exec_cons]
    apply ih
    cases hstep : step process s a with
    | none => exact hc
    | some t => exact cancelled_step process s t a (step_trans _ _ _ _ hstep) hc

/-- The caller has returned: with at least one worker and no cancellation,
every file has been recorded, each once. -/
theorem finished_perm_of_returned (process : Job → Outcome) (numWorkers : Nat)
    (files : List Job) (stats0 : ProcessStats) (s : PoolState)
    (hinv : Inv process numWorkers files stats0 s) (hW : 1 ≤ numWorkers)
    (hc : s.cancelled = false) (hm : s.main = MainPc.returned) : s.finished.Perm files := by
  have hall := hinv.joined (by rw [hm]; simp)
  have hne : s.workers ≠ [] := by
    intro h
    have := hinv.size
    rw [h] at this
    simp at this
    omega
  obtain ⟨pc, hpc⟩ := List.exists_mem_of_ne_nil _ hne
  have hex : WorkerPc.exited ∈ s.workers := by
    have := hall pc hpc
    rwa [this] at hpc
  obtain ⟨hclosed, hbuf⟩ := hinv.drained hc hex
  have hrem := (hinv.closedLast hclosed).1
  have hdrop := hinv.kept hc
  have hfl : inFlight s.workers = 0 := by
    unfold inFlight
    have : ∀ ws : List WorkerPc, (∀ q ∈ ws, q = WorkerPc.exited) →
        (ws.map WorkerPc.holding).sum = 0 := by
      intro ws
      induction ws with
      | nil => intro _; rfl
      | cons q ws ih =>
        intro hq
        have h1 := hq q (List.mem_cons_self _ _)
        subst h1
        simp only [List.map_cons, List.sum_cons, WorkerPc.holding, zero_add]
        exact ih (fun q' hq' => hq q' (List.mem_cons_of_mem _ hq'))
    exact this _ hall
  have := hinv.conserve
  rw [hfl, hbuf, hrem, hdrop] at this
  simp only [Multiset.coe_nil, add_zero] at this
  exact Multiset.coe_eq_coe.mp this

/-- The statistics at the return of `processFilesParallel`, with at least one
worker and no cancellation: those of the critical sections of all files, in
list order or in any other. -/
theorem stats_of_returned (process : Job → Outcome) (numWorkers : Nat)
    (files : List Job) (stats0 : ProcessStats) (s : PoolState)
    (hinv : Inv process numWorkers files stats0 s) (hW : 1 ≤ numWorkers)
    (hc : s.cancelled = false) (hm : s.main = MainPc.returned) :
    s.stats = applyOutcomes stats0 (files.map process) := by
  rw [hinv.recorded]
  exact applyOutcomes_perm _ _ _
    ((finished_perm_of_returned process numWorkers files stats0 s hinv hW hc hm).map process)

end Avifconv

namespace Avifconv

/-! ## The pool: no deadlock without cancellation, and the run returns -/

theorem worker_mem_poolActors (numWorkers w : Nat) (h : w < numWorkers) :
    Actor.worker w ∈ poolActors numWorkers := by
  simp only [poolActors, List.mem_append, List.mem_map, List.mem_range]
  exact Or.inr ⟨w, h, rfl⟩

/-- As long as the call has not returned, nobody has cancelled and nothing has
panicked, some goroutine can take a step. -/
theorem progress (process : Job → Outcome) (numWorkers : Nat) (files : List Job)
    (stats0 : ProcessStats) (s : PoolState) (hinv : Inv process numWorkers files stats0 s)
    (hc : s.cancelled = false) (hm : s.main ≠ MainPc.returned) (hp : s.panicked = none) :
    ∃ a ∈ poolActors numWorkers, ∃ t, step process s a = some t := by
  have hmainMem : Actor.main ∈ poolActors numWorkers := by simp [poolActors]
  have hprodMem : Actor.producer ∈ poolActors numWorkers := by simp [poolActors]
  cases hmain : s.main with
  | returned => exact absurd hmain hm
  | completing =>
    cases hr : s.bar.Complete.2 with
    | ok out => exact ⟨_, hmainMem, _, trans_step _ _ _ _ (Trans.complete s hmain out hr hp)⟩
    | error e => exact ⟨_, hmainMem, _, trans_step _ _ _ _ (Trans.completePanic s hmain e hr hp)⟩
  | waiting =>
    by_cases hall : s.workers.all WorkerPc.isExited = true
    · exact ⟨_, hmainMem, _, trans_step _ _ _ _ (Trans.waited s hmain hall hp)⟩
    · rw [List.all_eq_true] at hall
      push_neg at hall
      obtain ⟨pc, hmem, hpc⟩ := hall
      obtain ⟨w, hlt, hget⟩ := List.getElem_of_mem hmem
      have hw : s.workers[w]? = some pc := by
        rw [List.getElem?_eq_some]; exact ⟨hlt, hget⟩
      have hwMem : Actor.worker w ∈ poolActors numWorkers :=
        worker_mem_poolActors _ _ (by rw [← hinv.size]; exact hlt)
      cases pc with
      | exited => simp [WorkerPc.isExited] at hpc
      | got file => exact ⟨_, hwMem, _, trans_step _ _ _ _ (Trans.start s w file hw hc hp)⟩
      | busy file =>
        cases hr : (s.bar.Increment 1).2 with
        | ok out =>
          exact ⟨_, hwMem, _, trans_step _ _ _ _ (Trans.finish s w file hw out hr hp)⟩
        | error e =>
          exact ⟨_, hwMem, _, trans_step _ _ _ _ (Trans.finishPanic s w file hw e hr hp)⟩
      | idle =>
        cases hbuf : s.jobs.buf with
        | cons file rest =>
          exact ⟨_, hwMem, _, trans_step _ _ _ _ (Trans.recv s w file rest hw hbuf hp)⟩
        | nil =>
          cases hclosed : s.jobs.closed with
          | true => exact ⟨_, hwMem, _, trans_step _ _ _ _ (Trans.leave s w hw hbuf hclosed hp)⟩
          | false =>
            have hrun : s.producer.running = true := by
              cases hr : s.producer.running with
              | true => rfl
              | false =>
                have := hinv.stopped hc hr
                rw [hclosed] at this; cases this
            cases hrem : s.producer.remaining with
            | nil => exact ⟨_, hprodMem, _, trans_step _ _ _ _ (Trans.close s hrun hrem hp)⟩
            | cons file rest =>
              by_cases hcap : s.jobs.cap = 0
              · exact ⟨_, hwMem, _, trans_step _ _ _ _
                  (Trans.rendezvous s w file rest hw hbuf hclosed hcap hrun hrem hp)⟩
              · exact ⟨_, hprodMem, _, trans_step _ _ _ _
                  (Trans.send s file rest hrun hrem (by rw [hbuf]; simp; omega) hp)⟩

theorem measure_exec_le (process : Job → Outcome) (l : List Actor) (s : PoolState) :
    measure (exec process l s) ≤ measure s := by
  induction l generalizing s with
  | nil => exact le_refl _
  | cons b l ih =>
    rw [exec_cons]
    cases hstep : step process s b with
    | none => exact ih s
    | some t =>
      have := measure_decreases process s t b (step_trans _ _ _ _ hstep)
      exact le_trans (ih t) (le_of_lt this)

/-- A schedule that offers a step to an actor that can move makes the measure
smaller. -/
theorem measure_exec_lt (process : Job → Outcome) (l : List Actor) (s : PoolState)
    (h : ∃ a ∈ l, ∃ t, step process s a = some t) :
    measure (exec process l s) < measure s := by
  induction l generalizing s with
  | nil =>
    obtain ⟨a, ha, _⟩ := h
    cases ha
  | cons b l ih =>
    rw [exec_cons]
    cases hstep : step process s b with
    | some t =>
      have := measure_decreases process s t b (step_trans _ _ _ _ hstep)
      exact lt_of_le_of_lt (measure_exec_le process l t) this
    | none =>
      apply ih s
      obtain ⟨a, ha, t, hat⟩ := h
      rcases List.mem_cons.mp ha with rfl | ha'
      · rw [hstep] at hat; cases hat
      · exact ⟨a, ha', t, hat⟩

theorem cancel_not_mem_poolActors (numWorkers : Nat) : Actor.cancel ∉ poolActors numWorkers := by
  simp [poolActors]

/-- Only `cancel()` cancels. -/
theorem uncancelled_step (process : Job → Outcome) (s t : PoolState) (a : Actor)
    (h : Trans process s a t) (ha : a ≠ Actor.cancel) : t.cancelled = s.cancelled := by
  cases h <;> first | rfl | exact absurd rfl ha

theorem uncancelled_exec (process : Job → Outcome) (l : List Actor) (s : PoolState)
    (hl : Actor.cancel ∉ l) : (exec process l s).cancelled = s.cancelled := by
  induction l generalizing s with
  | nil => rfl
  | cons b l ih =>
    rw [exec_cons]
    have hb : b ≠ Actor.cancel := fun hb => hl (by rw [hb]; exact List.mem_cons_self _ _)
    have hl' : Actor.cancel ∉ l := fun h => hl (List.mem_cons_of_mem _ h)
    cases hstep : step process s b with
    | none => exact ih s hl'
    | some t =>
      rw [Option.getD_some, ih t hl']
      exact uncancelled_step process s t b (step_trans _ _ _ _ hstep) hb

/-- Once the call has returned it stays returned. -/
theorem returned_step (process : Job → Outcome) (s t : PoolState) (a : Actor)
    (h : Trans process s a t) (hm : s.main = MainPc.returned) : t.main = MainPc.returned := by
  cases h with
  | waited hm' _ => rw [hm] at hm'; cases hm'
  | complete hm' => rfl
  | completePanic hm' => rw [hm] at hm'; cases hm'
  | _ => exact hm

theorem returned_exec (process : Job → Outcome) (l : List Actor) (s : PoolState)
    (hm : s.main = MainPc.returned) : (exec process l s).main = MainPc.returned := by
  induction l generalizing s with
  | nil => exact hm
  | cons b l ih =>
    rw [exec_cons]
    cases hstep : step process s b with
    | none => exact ih s hm
    | some t => exact ih t (returned_step process s t b (step_trans _ _ _ _ hstep) hm)

theorem roundRobin_succ (numWorkers n : Nat) :
    roundRobin numWorkers (n + 1) = poolActors numWorkers ++ roundRobin numWorkers n := by
  simp [roundRobin, List.replicate_succ]

theorem cancel_not_mem_roundRobin (numWorkers n : Nat) :
    Actor.cancel ∉ roundRobin numWorkers n := by
  induction n with
  | zero => simp [roundRobin]
  | succ n ih =>
    rw [roundRobin_succ, List.mem_append]
    rintro (h | h)
    · exact cancel_not_mem_poolActors numWorkers h
    · exact ih h

/-- Without cancellation, on a list that is not empty, the round-robin
schedule brings the call to its return within as many rounds as the measure of
the state. -/
theorem roundRobin_returns (process : Job → Outcome) (numWorkers : Nat) (files : List Job)
    (stats0 : ProcessStats) (hne : files ≠ []) (hN : (files.length : Int) ≤ maxInt64)
    (n : Nat) (s : PoolState)
    (hinv : Inv process numWorkers files stats0 s) (hbar : BarInv files s)
    (hc : s.cancelled = false) (hn : measure s ≤ n) :
    (exec process (roundRobin numWorkers n) s).main = MainPc.returned := by
  induction n generalizing s with
  | zero =>
    have : 1 ≤ measure s := by simp [measure, hc, (hbar.quiet hne hN).1]
    omega
  | succ n ih =>
    by_cases hm : s.main = MainPc.returned
    · exact returned_exec process _ s hm
    · rw [roundRobin_succ, exec_append]
      apply ih
      · exact inv_exec process numWorkers files stats0 _ s hinv
      · exact barInv_exec process numWorkers files stats0 _ s hinv hbar
      · rw [uncancelled_exec process _ s (cancel_not_mem_poolActors numWorkers)]; exact hc
      · have := measure_exec_lt process (poolActors numWorkers) s
          (progress process numWorkers files stats0 s hinv hc hm (hbar.quiet hne hN).1)
        omega

theorem measure_initState (numWorkers capacity : Nat) (files : List Job)
    (stats0 : ProcessStats) :
    measure (initState numWorkers capacity files stats0 false) =
      4 * files.length + numWorkers + 4 := by
  have : ((List.replicate numWorkers WorkerPc.idle).map WorkerPc.weight).sum = numWorkers := by
    simp [WorkerPc.weight]
  simp only [measure, initState, this, MainPc.weight]
  simp
  omega

end Avifconv

namespace Avifconv

/-! ## `processFilesParallel` -/

theorem queueSize_eq_min (p : Processor) (files : List Job) :
    queueSize p files = min p.QueueSize (files.length : Int) := by
  unfold queueSize
  split <;> omega

/-- The set-up succeeds exactly on a queue size and a worker count that are
not negative. -/
theorem start_eq_ok (p : Processor) (files : List Job) (stats : ProcessStats) (ctxDone : Bool)
    (s : PoolState) (h : start p files stats ctxDone = .ok s) :
    0 ≤ queueSize p files ∧ 0 ≤ p.NumWorkers ∧
      s = initState p.NumWorkers.toNat (queueSize p files).toNat files stats ctxDone := by
  unfold start at h
  split at h
  · cases h
  · split at h
    · cases h
    · cases h
      refine ⟨by omega, by omega, rfl⟩

theorem start_ok (p : Processor) (files : List Job) (stats : ProcessStats) (ctxDone : Bool)
    (hq : 0 ≤ p.QueueSize) (hw : 0 ≤ p.NumWorkers) :
    start p files stats ctxDone =
      .ok (initState p.NumWorkers.toNat (queueSize p files).toNat files stats ctxDone) := by
  have : 0 ≤ queueSize p files := by rw [queueSize_eq_min]; omega
  unfold start
  rw [if_neg (by omega), if_neg (by omega)]

theorem processFilesParallel_eq_ok (process : Job → Outcome) (p : Processor) (ctxDone : Bool)
    (files : List Job) (stats : ProcessStats) (sched : List Actor) (s : PoolState)
    (h : processFilesParallel process p ctxDone files stats sched = .ok s) :
    0 ≤ queueSize p files ∧ 0 ≤ p.NumWorkers ∧
      s = exec process sched
        (initState p.NumWorkers.toNat (queueSize p files).toNat files stats ctxDone) := by
  unfold processFilesParallel at h
  cases hs : start p files stats ctxDone with
  | error e => rw [hs] at h; cases h
  | ok s0 =>
    rw [hs] at h
    obtain ⟨h1, h2, h3⟩ := start_eq_ok p files stats ctxDone s0 hs
    cases h
    exact ⟨h1, h2, by rw [h3]⟩

/-- Every state of a run of `processFilesParallel` satisfies the invariant. -/
theorem processFilesParallel_inv (process : Job → Outcome) (p : Processor) (ctxDone : Bool)
    (files : List Job) (stats : ProcessStats) (sched : List Actor) (s : PoolState)
    (h : processFilesParallel process p ctxDone files stats sched = .ok s) :
    Inv process p.NumWorkers.toNat files stats s := by
  obtain ⟨-, -, rfl⟩ := processFilesParallel_eq_ok process p ctxDone files stats sched s h
  exact inv_exec process _ files stats sched _ (inv_init process _ _ files stats ctxDone)

/-- With at least one worker and no cancellation, the statistics at the return
of `processFilesParallel` are those of the critical sections of all files. -/
theorem processFilesParallel_stats (process : Job → Outcome) (p : Processor)
    (files : List Job) (stats : ProcessStats) (sched : List Actor) (s : PoolState)
    (hW : 1 ≤ p.NumWorkers)
    (h : processFilesParallel process p false files stats sched = .ok s)
    (hm : s.main = MainPc.returned) (hc : s.cancelled = false) :
    s.stats = applyOutcomes stats (files.map process) :=
  stats_of_returned process p.NumWorkers.toNat files stats s
    (processFilesParallel_inv process p false files stats sched s h) (by omega) hc hm

/-- Every state of a run of `processFilesParallel` satisfies the invariant
of the bar. -/
theorem processFilesParallel_barInv (process : Job → Outcome) (p : Processor)
    (ctxDone : Bool) (files : List Job) (stats : ProcessStats) (sched : List Actor)
    (s : PoolState) (h : processFilesParallel process p ctxDone files stats sched = .ok s) :
    BarInv files s := by
  obtain ⟨-, -, rfl⟩ := processFilesParallel_eq_ok process p ctxDone files stats sched s h
  exact barInv_exec process _ files stats sched _ (inv_init process _ _ files stats ctxDone)
    (barInv_init _ _ files stats ctxDone)

/-- Without cancellation the pool of `processFilesParallel` comes to its
return on a list that is not empty: the round-robin schedule of
`4 * len(files) + NumWorkers + 4` rounds reaches it, and nothing has
panicked. -/
theorem processFilesParallel_returns (process : Job → Outcome) (p : Processor)
    (files : List Job) (stats : ProcessStats) (hq : 0 ≤ p.QueueSize) (hw : 0 ≤ p.NumWorkers)
    (hne : files ≠ []) (hN : (files.length : Int) ≤ maxInt64) :
    ∃ s, processFilesParallel process p false files stats
        (roundRobin p.NumWorkers.toNat (4 * files.length + p.NumWorkers.toNat + 4)) = .ok s ∧
      s.main = MainPc.returned ∧ s.cancelled = false := by
  refine ⟨_, by rw [processFilesParallel, start_ok p files stats false hq hw]; rfl, ?_, ?_⟩
  · apply roundRobin_returns process _ files stats hne hN
    · exact inv_init process _ _ files stats false
    · exact barInv_init _ _ files stats false
    · rfl
    · rw [measure_initState]
  · rw [uncancelled_exec process _ _ (cancel_not_mem_roundRobin _ _)]; rfl

/-- On an empty list the call never returns, whatever the schedule: the bar
has a total of zero, and the `bar.Complete()` that stands before the return
panics. -/
theorem processFilesParallel_empty_never_returns (process : Job → Outcome) (p : Processor)
    (ctxDone : Bool) (stats : ProcessStats) (sched : List Actor) (s : PoolState)
    (h : processFilesParallel process p ctxDone [] stats sched = .ok s) :
    s.main ≠ MainPc.returned :=
  (processFilesParallel_barInv process p ctxDone [] stats sched s h).empty rfl

/-- On an empty list and without cancellation, two steps of the caller end in
the panic of `bar.Complete()`. -/
theorem processFilesParallel_empty_panics :
    ∃ s, processFilesParallel (fun _ => ⟨1000, 400, none⟩) ⟨0, 3⟩ false []
        { TotalFiles := 0 } [Actor.main, Actor.main] = .ok s ∧
      s.main = MainPc.completing ∧ s.panicked = some "strings: negative Repeat count" ∧
      s.bar.complete = false ∧ s.out = [] :=
  ⟨_, rfl, rfl, rfl, rfl, rfl⟩

/-- With at least one worker and no cancellation, when `processFilesParallel`
returns on `ProcessStats{TotalFiles: N}`, `ProcessedFiles == N` and
`SuccessfulFiles + FailedFiles == N`. -/
theorem processFilesParallel_processes_all (process : Job → Outcome) (p : Processor)
    (files : List Job) (sched : List Actor) (s : PoolState)
    (hN : (files.length : Int) ≤ maxInt64) (hW : 1 ≤ p.NumWorkers)
    (h : processFilesParallel process p false files { TotalFiles := files.length } sched =
      .ok s)
    (hm : s.main = MainPc.returned) (hc : s.cancelled = false) :
    s.stats.ProcessedFiles = files.length ∧
      s.stats.SuccessfulFiles + s.stats.FailedFiles = files.length := by
  have hst := processFilesParallel_stats process p files _ sched s hW h hm hc
  have hr : ProcessStats.inRange { TotalFiles := files.length } := by
    unfold ProcessStats.inRange isInt64 maxInt64; unfold maxInt64 at hN
    simp only []; omega
  have hsf := succCount_add_failCount (files.map process)
  rw [List.length_map] at hsf
  rw [hst, applyOutcomes_eq _ hr]
  simp only [zero_add, List.length_map]
  unfold maxInt64 at hN
  rw [wrapInt64_of_inRange, wrapInt64_of_inRange, wrapInt64_of_inRange] <;>
    first
      | (unfold maxInt64; omega)
      | omega

/-- C1, at the failing input `-workers 0`: with `NumWorkers = 0` and one file,
`wg.Wait()` returns at once, `bar.Complete()` runs and `processFilesParallel`
returns without cancellation while `ProcessedFiles` is still 0 and
`TotalFiles` is 1, and the bar shows the full total. -/
theorem C1_zero_workers_returns_unprocessed :
    ∃ s, processFilesParallel (fun _ => ⟨1000, 400, none⟩) ⟨0, 3⟩ false ["a.png"]
        { TotalFiles := 1 } [Actor.main, Actor.main] = .ok s ∧
      s.main = MainPc.returned ∧ s.cancelled = false ∧ s.stats.ProcessedFiles = 0 ∧
      s.stats.SuccessfulFiles + s.stats.FailedFiles = 0 ∧ s.stats.TotalFiles = 1 ∧
      s.bar.current = 1 :=
  ⟨_, rfl, rfl, rfl, rfl, rfl, rfl, rfl⟩

/-! ## The capacity of the job queue -/

theorem cap_step (process : Job → Outcome) (s t : PoolState) (a : Actor)
    (h : Trans process s a t) : t.jobs.cap = s.jobs.cap := by
  cases h <;> rfl

theorem cap_exec (process : Job → Outcome) (sched : List Actor) (s : PoolState) :
    (exec process sched s).jobs.cap = s.jobs.cap := by
  induction sched generalizing s with
  | nil => rfl
  | cons a sched ih =>
    rw [exec_cons]
    cases hstep : step process s a with
    | none => exact ih s
    | some t => rw [Option.getD_some, ih t, cap_step process s t a (step_trans _ _ _ _ hstep)]

/-- C7. The capacity `processFilesParallel` computes for the job queue is
`min(p.QueueSize, len(files))`, for every queue size and every job list; the
channel it makes has that capacity, and keeps it in every state of the run. -/
theorem C7_queue_capacity (p : Processor) (files : List Job) :
    queueSize p files = min p.QueueSize (files.length : Int) ∧
      ∀ (process : Job → Outcome) (ctxDone : Bool) (stats : ProcessStats)
        (sched : List Actor) (s : PoolState),
        processFilesParallel process p ctxDone files stats sched = .ok s →
          (s.jobs.cap : Int) = min p.QueueSize (files.length : Int) := by
  refine ⟨queueSize_eq_min p files, ?_⟩
  intro process ctxDone stats sched s h
  obtain ⟨hq, -, rfl⟩ := processFilesParallel_eq_ok process p ctxDone files stats sched s h
  rw [cap_exec, ← queueSize_eq_min]
  simp only [initState]
  omega

theorem C7_queue_capacity_witness :
    queueSize ⟨4, 8⟩ ["a", "b", "c"] = min 8 (3 : Int) ∧
      (((exec (fun _ => ⟨1000, 400, none⟩) [Actor.producer, Actor.worker 0]
          (initState 4 3 ["a", "b", "c"] { TotalFiles := 3 } false)).jobs.cap : Nat) : Int) =
        min 8 (3 : Int) :=
  ⟨(C7_queue_capacity ⟨4, 8⟩ ["a", "b", "c"]).1,
    (C7_queue_capacity ⟨4, 8⟩ ["a", "b", "c"]).2 (fun _ => ⟨1000, 400, none⟩) false
      { TotalFiles := 3 } [Actor.producer, Actor.worker 0] _ rfl⟩

end Avifconv

namespace Avifconv

/-! ## Lost updates and byte totals -/

theorem succCount_append (os os' : List Outcome) :
    succCount (os ++ os') = succCount os + succCount os' := by
  simp [succCount, List.countP_append]

theorem failCount_append (os os' : List Outcome) :
    failCount (os ++ os') = failCount os + failCount os' := by
  simp [failCount, List.countP_append]

/-- When the outcome of index `i` is a success iff `i` is even, the successes
are `ceil(N/2)` and the failures `floor(N/2)`. -/
theorem parity_counts (os : List Outcome)
    (h : ∀ (i : Nat) (hi : i < os.length), os[i].succeeded = decide (i % 2 = 0)) :
    succCount os = (os.length + 1) / 2 ∧ failCount os = os.length / 2 := by
  induction os using List.reverseRecOn with
  | nil => exact ⟨rfl, rfl⟩
  | append_singleton os o ih =>
    have ih' := ih (fun i hi => by
      have := h i (by rw [List.length_append]; omega)
      rwa [List.getElem_append_left hi] at this)
    have ho := h os.length (by simp)
    rw [List.getElem_append_right (le_refl _)] at ho
    simp only [Nat.sub_self, List.getElem_cons_zero] at ho
    rw [succCount_append, failCount_append, ih'.1, ih'.2, List.length_append]
    simp only [succCount, failCount, List.countP_cons, List.countP_nil, ho, List.length_singleton]
    by_cases hp : os.length % 2 = 0
    · simp [hp]; omega
    · simp [hp]; omega

/-- C3. The final statistics do not depend on the order of the critical
sections: a permutation of the outcomes gives the same `ProcessStats`; for
1, 2, 8 or 64 workers every run of `processFilesParallel` that returns
without cancellation ends with the statistics of the files taken in list
order, whatever the schedule; when the job of index `i` succeeds iff `i` is
even these have `SuccessfulFiles == ceil(N/2)` and `FailedFiles ==
floor(N/2)`; and such a run exists for every job list that is not empty and
every queue size that is not negative. -/
theorem C3_no_lost_update (process : Job → Outcome) (p : Processor) (files : List Job)
    (hN : (files.length : Int) ≤ maxInt64) (hW : p.NumWorkers ∈ [(1 : Int), 2, 8, 64]) :
    (∀ (stats : ProcessStats) (os os' : List Outcome), os.Perm os' →
        applyOutcomes stats os = applyOutcomes stats os') ∧
      (∀ (sched : List Actor) (s : PoolState),
        processFilesParallel process p false files { TotalFiles := files.length } sched =
            .ok s →
          s.main = MainPc.returned → s.cancelled = false →
            s.stats = applyOutcomes { TotalFiles := files.length } (files.map process) ∧
              ((∀ (i : Nat) (hi : i < files.length),
                  (process files[i]).succeeded = decide (i % 2 = 0)) →
                s.stats.SuccessfulFiles = ((files.length + 1) / 2 : Nat) ∧
                  s.stats.FailedFiles = (files.length / 2 : Nat))) ∧
      (0 ≤ p.QueueSize → files ≠ [] →
        ∃ s, processFilesParallel process p false files { TotalFiles := files.length }
            (roundRobin p.NumWorkers.toNat (4 * files.length + p.NumWorkers.toNat + 4)) =
              .ok s ∧
          s.main = MainPc.returned ∧ s.cancelled = false) := by
  have hW1 : 1 ≤ p.NumWorkers := by
    simp only [List.mem_cons, List.mem_singleton, List.not_mem_nil, or_false] at hW
    omega
  refine ⟨applyOutcomes_perm, ?_, ?_⟩
  · intro sched s h hm hc
    have hst := processFilesParallel_stats process p files _ sched s hW1 h hm hc
    refine ⟨hst, ?_⟩
    intro hpar
    have hcount := parity_counts (files.map process) (fun i hi => by
      rw [List.getElem_map]
      exact hpar i (by simpa using hi))
    rw [List.length_map] at hcount
    have hr : ProcessStats.inRange { TotalFiles := files.length } := by
      unfold ProcessStats.inRange isInt64 maxInt64; unfold maxInt64 at hN
      simp only []; omega
    rw [hst, applyOutcomes_eq _ hr]
    simp only [zero_add, hcount.1, hcount.2]
    unfold maxInt64 at hN
    constructor
    · exact wrapInt64_of_inRange _ (by omega) (by unfold maxInt64; omega)
    · exact wrapInt64_of_inRange _ (by omega) (by unfold maxInt64; omega)
  · intro hq hne
    exact processFilesParallel_returns process p files _ hq (by omega) hne hN

set_option maxRecDepth 100000 in
theorem C3_no_lost_update_witness :
    (exec parityProcess (roundRobin 2 9)
        (initState 2 3 ["a", "bb", "ccc"] { TotalFiles := 3 } false)).stats.SuccessfulFiles =
        2 ∧
      (exec parityProcess (roundRobin 2 9)
        (initState 2 3 ["a", "bb", "ccc"] { TotalFiles := 3 } false)).stats.FailedFiles = 1 :=
  ((C3_no_lost_update parityProcess ⟨2, 3⟩ ["a", "bb", "ccc"] (by decide) (by decide)).2.1
    (roundRobin 2 9) _ rfl (by decide) (by decide)).2 (by decide)

end Avifconv

namespace Avifconv

/-- A failed job: `ProcessedFiles` and `FailedFiles` grow by one, nothing else
changes, whatever sizes came back with the error. -/
theorem workerCritical_failed (stats : ProcessStats) (o : Outcome) (h : o.err ≠ none) :
    workerCritical stats o =
      { stats with
        ProcessedFiles := wrapInt64 (stats.ProcessedFiles + 1)
        FailedFiles := wrapInt64 (stats.FailedFiles + 1) } := by
  unfold workerCritical
  cases ho : o.err with
  | none => exact absurd ho h
  | some e => rfl

set_option maxRecDepth 100000 in
/-- C4, the claim as stated fails: two successful jobs of `2 ^ 62` bytes each
(an `int64` size) run through one worker to the return of
`processFilesParallel`, without cancellation; `TotalOriginalSize += origSize`
wraps to `-2 ^ 63`, while the sum of the original sizes is `2 ^ 63`. -/
theorem C4_counterexample :
    processFilesParallel hugeProcess ⟨1, 3⟩ false ["a", "b"] { TotalFiles := 2 }
        (roundRobin 1 9) =
        .ok (exec hugeProcess (roundRobin 1 9)
          (initState 1 2 ["a", "b"] { TotalFiles := 2 } false)) ∧
      (exec hugeProcess (roundRobin 1 9)
        (initState 1 2 ["a", "b"] { TotalFiles := 2 } false)).main = MainPc.returned ∧
      (exec hugeProcess (roundRobin 1 9)
        (initState 1 2 ["a", "b"] { TotalFiles := 2 } false)).cancelled = false ∧
      (0 ≤ (hugeProcess "a").origSize ∧ (hugeProcess "a").origSize ≤ maxInt64) ∧
      (exec hugeProcess (roundRobin 1 9)
        (initState 1 2 ["a", "b"] { TotalFiles := 2 } false)).stats.TotalOriginalSize =
        -(2 : Int) ^ 63 ∧
      origSum (["a", "b"].map hugeProcess) = (2 : Int) ^ 63 ∧
      (exec hugeProcess (roundRobin 1 9)
        (initState 1 2 ["a", "b"] { TotalFiles := 2 } false)).stats.TotalOriginalSize ≠
        origSum (["a", "b"].map hugeProcess) := by
  refine ⟨rfl, by decide, by decide, ?_, by decide, by decide, by decide⟩
  simp only [hugeProcess, maxInt64]
  omega

/-- C4, amended. With at least one worker and no cancellation, at the return
of `processFilesParallel` on `ProcessStats{TotalFiles: N}`:
`TotalOriginalSize` is the sum of `origSize` over the successful jobs only,
wrapped to an `int64`, hence that sum itself whenever it fits in an `int64`;
the same holds for `TotalCompressedSize` and `compSize`; `ProcessedFiles` is
`N`, `SuccessfulFiles` and `FailedFiles` are the numbers of successes and of
failures. A failed job increments `ProcessedFiles` and `FailedFiles` and
changes nothing else, whatever sizes came back with the error; and a file
that cannot be opened comes back as a failure together with its size. -/
theorem C4_byte_totals (process : Job → Outcome) (p : Processor) (files : List Job)
    (sched : List Actor) (s : PoolState)
    (hN : (files.length : Int) ≤ maxInt64) (hW : 1 ≤ p.NumWorkers)
    (h : processFilesParallel process p false files { TotalFiles := files.length } sched =
      .ok s)
    (hm : s.main = MainPc.returned) (hc : s.cancelled = false) :
    s.stats.TotalOriginalSize = wrapInt64 (origSum (files.map process)) ∧
      s.stats.TotalCompressedSize = wrapInt64 (compSum (files.map process)) ∧
      (isInt64 (origSum (files.map process)) →
        s.stats.TotalOriginalSize = origSum (files.map process)) ∧
      (isInt64 (compSum (files.map process)) →
        s.stats.TotalCompressedSize = compSum (files.map process)) ∧
      s.stats.ProcessedFiles = files.length ∧
      s.stats.SuccessfulFiles = succCount (files.map process) ∧
      s.stats.FailedFiles = failCount (files.map process) ∧
      (∀ (stats : ProcessStats) (o : Outcome), o.err ≠ none →
        workerCritical stats o =
          { stats with
            ProcessedFiles := wrapInt64 (stats.ProcessedFiles + 1)
            FailedFiles := wrapInt64 (stats.FailedFiles + 1) }) ∧
      (∀ (fs : FileSys) (file : Job) (size : Int) (e : String),
        fs.stat file = .ok size → fs.openFile file = .error e →
          processFileWithStats fs file = ⟨size, 0, some ("error opening file: " ++ e)⟩) := by
  have hst := processFilesParallel_stats process p files _ sched s hW h hm hc
  have hr : ProcessStats.inRange { TotalFiles := files.length } := by
    unfold ProcessStats.inRange isInt64 maxInt64; unfold maxInt64 at hN
    simp only []; omega
  have hsf := succCount_add_failCount (files.map process)
  rw [List.length_map] at hsf
  rw [hst, applyOutcomes_eq _ hr]
  simp only [zero_add, List.length_map]
  unfold maxInt64 at hN
  refine ⟨trivial, trivial, ?_, ?_, ?_, ?_, ?_, workerCritical_failed, ?_⟩
  · intro hi; exact wrapInt64_of_inRange _ hi.1 hi.2
  · intro hi; exact wrapInt64_of_inRange _ hi.1 hi.2
  · exact wrapInt64_of_inRange _ (by omega) (by unfold maxInt64; omega)
  · exact wrapInt64_of_inRange _ (by omega) (by unfold maxInt64; omega)
  · exact wrapInt64_of_inRange _ (by omega) (by unfold maxInt64; omega)
  · intro fs file size e h1 h2
    simp only [processFileWithStats, h1, h2]

end Avifconv

namespace Avifconv

set_option maxRecDepth 100000 in
theorem C4_byte_totals_witness :
    (exec scenarioProcess (roundRobin 4 15)
        (initState 4 8 scenarioFiles { TotalFiles := 10 } false)).stats =
      { TotalOriginalSize := 7000, TotalCompressedSize := 2800, TotalFiles := 10,
        ProcessedFiles := 10, SuccessfulFiles := 7, FailedFiles := 3 } := by
  have horig : origSum (scenarioFiles.map scenarioProcess) = 7000 := by decide
  have hcomp : compSum (scenarioFiles.map scenarioProcess) = 2800 := by decide
  have hsucc : succCount (scenarioFiles.map scenarioProcess) = 7 := by decide
  have hfail : failCount (scenarioFiles.map scenarioProcess) = 3 := by decide
  have htotal : (exec scenarioProcess (roundRobin 4 15)
      (initState 4 8 scenarioFiles { TotalFiles := 10 } false)).stats.TotalFiles = 10 := by
    decide
  have h := C4_byte_totals scenarioProcess ⟨4, 8⟩ scenarioFiles (roundRobin 4 15)
    (exec scenarioProcess (roundRobin 4 15)
      (initState 4 8 scenarioFiles { TotalFiles := 10 } false))
    (by decide) (by decide) rfl (by decide) (by decide)
  obtain ⟨-, -, h1, h2, h3, h4, h5, -, -⟩ := h
  have h1' := h1 (by rw [horig]; unfold isInt64 maxInt64; omega)
  have h2' := h2 (by rw [hcomp]; unfold isInt64 maxInt64; omega)
  rw [horig] at h1'
  rw [hcomp] at h2'
  rw [hsucc] at h4
  rw [hfail] at h5
  cases hs : (exec scenarioProcess (roundRobin 4 15)
      (initState 4 8 scenarioFiles { TotalFiles := 10 } false)).stats
  rw [hs] at h1' h2' h3 h4 h5 htotal
  simp only at h1' h2' h3 h4 h5 htotal
  subst h1' h2' h3 h4 h5 htotal
  rfl

end Avifconv

namespace Avifconv

/-! ## Cancellation -/

/-- Under a cancellation that is already in force, no step calls
`processFileWithStats` or touches the statistics. -/
theorem cancelled_quiet_step (process : Job → Outcome) (stats0 : ProcessStats)
    (s t : PoolState) (a : Actor) (h : Trans process s a t)
    (hs : s.cancelled = true ∧ s.stats = stats0 ∧ s.calls = [] ∧ s.finished = [] ∧
      ∀ pc ∈ s.workers, ∀ file, pc ≠ WorkerPc.busy file) :
    t.cancelled = true ∧ t.stats = stats0 ∧ t.calls = [] ∧ t.finished = [] ∧
      ∀ pc ∈ t.workers, ∀ file, pc ≠ WorkerPc.busy file := by
  obtain ⟨hc, hst, hcalls, hfin, hbusy⟩ := hs
  have hset : ∀ (w : Nat) (new : WorkerPc), (∀ file, new ≠ WorkerPc.busy file) →
      ∀ pc ∈ s.workers.set w new, ∀ file, pc ≠ WorkerPc.busy file := by
    intro w new hnew pc hpc file
    rcases List.mem_or_eq_of_mem_set hpc with h | h
    · exact hbusy pc h file
    · rw [h]; exact hnew file
  cases h with
  | close hrun hrem => exact ⟨hc, hst, hcalls, hfin, hbusy⟩
  | send file rest hrun hrem hroom => exact ⟨hc, hst, hcalls, hfin, hbusy⟩
  | producerDone file rest hrun hc' hrem => exact ⟨hc, hst, hcalls, hfin, hbusy⟩
  | recv w file rest hw hbuf =>
    exact ⟨hc, hst, hcalls, hfin, hset w _ (fun _ => by simp)⟩
  | leave w hw hbuf hclosed =>
    exact ⟨hc, hst, hcalls, hfin, hset w _ (fun _ => by simp)⟩
  | rendezvous w file rest hw hbuf hopen hcap hrun hrem =>
    exact ⟨hc, hst, hcalls, hfin, hset w _ (fun _ => by simp)⟩
  | abandon w file hw hc' =>
    exact ⟨hc, hst, hcalls, hfin, hset w _ (fun _ => by simp)⟩
  | start w file hw hc' => rw [hc] at hc'; cases hc'
  | finish w file hw => exact absurd rfl (hbusy _ (mem_of_getElem?_eq _ _ _ hw) file)
  | finishPanic w file hw => exact absurd rfl (hbusy _ (mem_of_getElem?_eq _ _ _ hw) file)
  | waited hm hall => exact ⟨hc, hst, hcalls, hfin, hbusy⟩
  | complete hm => exact ⟨hc, hst, hcalls, hfin, hbusy⟩
  | completePanic hm => exact ⟨hc, hst, hcalls, hfin, hbusy⟩
  | cancel hc' => rw [hc] at hc'; cases hc'

theorem cancelled_quiet_exec (process : Job → Outcome) (stats0 : ProcessStats)
    (sched : List Actor) (s : PoolState)
    (hs : s.cancelled = true ∧ s.stats = stats0 ∧ s.calls = [] ∧ s.finished = [] ∧
      ∀ pc ∈ s.workers, ∀ file, pc ≠ WorkerPc.busy file) :
    (exec process sched s).cancelled = true ∧ (exec process sched s).stats = stats0 ∧
      (exec process sched s).calls = [] ∧ (exec process sched s).finished = [] ∧
      ∀ pc ∈ (exec process sched s).workers, ∀ file, pc ≠ WorkerPc.busy file := by
  induction sched generalizing s with
  | nil => exact hs
  | cons a sched ih =>
    rw [exec_cons]
    apply ih
    cases hstep : step process s a with
    | none => exact hs
    | some t => exact cancelled_quiet_step process stats0 s t a (step_trans _ _ _ _ hstep) hs

/-- C5. A worker that holds a job it has just received while cancellation is
set returns: it does not call `processFileWithStats` and leaves the
statistics and the bar as they are; this is the step the pool takes for that
worker as long as the program has not panicked. When `ctx` is cancelled before
`processFilesParallel` starts, then in every state of every run, the last one
included, the statistics are the initial ones, so `ProcessedFiles == 0`, and
`processFileWithStats` has not been called. -/
theorem C5_cancelled_before_start (process : Job → Outcome) :
    (∀ (s : PoolState) (w : Nat) (file : Job),
        s.workers[w]? = some (WorkerPc.got file) → s.cancelled = true →
          (s.panicked = none → step process s (Actor.worker w) = stepWorker process s w) ∧
          ∃ t, stepWorker process s w = some t ∧
            t.workers[w]? = some WorkerPc.exited ∧ t.stats = s.stats ∧ t.calls = s.calls ∧
            t.bar = s.bar ∧ t.finished = s.finished) ∧
      (∀ (p : Processor) (files : List Job) (sched : List Actor) (s : PoolState),
        processFilesParallel process p true files { TotalFiles := files.length } sched =
            .ok s →
          s.stats = { TotalFiles := files.length } ∧ s.stats.ProcessedFiles = 0 ∧
            s.calls = [] ∧ s.finished = []) := by
  constructor
  · intro s w file hw hc
    refine ⟨fun hp => by simp only [step, hp],
      { s with workers := s.workers.set w .exited, dropped := s.dropped ++ [file] },
      by simp only [stepWorker, hw, hc, if_true], ?_, rfl, rfl, rfl, rfl⟩
    have hlt : w < s.workers.length := by
      rw [List.getElem?_eq_some] at hw
      exact hw.1
    exact List.getElem?_set_self hlt
  · intro p files sched s h
    obtain ⟨-, -, rfl⟩ := processFilesParallel_eq_ok process p true files _ sched s h
    have := cancelled_quiet_exec process { TotalFiles := files.length } sched
      (initState p.NumWorkers.toNat (queueSize p files).toNat files
        { TotalFiles := files.length } true)
      ⟨rfl, rfl, rfl, rfl, fun pc hpc file => by
        simp only [initState] at hpc
        rw [List.eq_of_mem_replicate hpc]
        simp⟩
    obtain ⟨-, hst, hcalls, hfin, -⟩ := this
    refine ⟨hst, ?_, hcalls, hfin⟩
    rw [hst]

theorem C5_cancelled_before_start_witness :
    (exec scenarioProcess
        [Actor.producer, Actor.worker 0, Actor.worker 0, Actor.main, Actor.main]
        (initState 1 1 ["a.png"] { TotalFiles := 1 } true)).main = MainPc.returned ∧
      (exec scenarioProcess
        [Actor.producer, Actor.worker 0, Actor.worker 0, Actor.main, Actor.main]
        (initState 1 1 ["a.png"] { TotalFiles := 1 } true)).stats.ProcessedFiles = 0 ∧
      (exec scenarioProcess
        [Actor.producer, Actor.worker 0, Actor.worker 0, Actor.main, Actor.main]
        (initState 1 1 ["a.png"] { TotalFiles := 1 } true)).calls = [] :=
  ⟨by decide,
    ((C5_cancelled_before_start scenarioProcess).2 ⟨1, 3⟩ ["a.png"]
      [Actor.producer, Actor.worker 0, Actor.worker 0, Actor.main, Actor.main] _ rfl).2.1,
    ((C5_cancelled_before_start scenarioProcess).2 ⟨1, 3⟩ ["a.png"]
      [Actor.producer, Actor.worker 0, Actor.worker 0, Actor.main, Actor.main] _ rfl).2.2.1⟩

/-- C6, at the failing input: one file, one worker, `ctx` already cancelled,
and the producer's `select` takes `case <-ctx.Done(): return`. The producer
has stopped, nothing was published and the channel is still open: the
`close(jobs)` after the loop was skipped. From there no goroutine can take a
step: the worker waits in `range jobs` on an open, empty channel, the caller
waits in `wg.Wait()`. -/
theorem C6_cancel_skips_close :
    (exec scenarioProcess [Actor.producerDone]
        (initState 1 1 ["a.png"] { TotalFiles := 1 } true)).producer.running = false ∧
      (exec scenarioProcess [Actor.producerDone]
        (initState 1 1 ["a.png"] { TotalFiles := 1 } true)).jobs.closed = false ∧
      (exec scenarioProcess [Actor.producerDone]
        (initState 1 1 ["a.png"] { TotalFiles := 1 } true)).jobs.buf = [] ∧
      (exec scenarioProcess [Actor.producerDone]
        (initState 1 1 ["a.png"] { TotalFiles := 1 } true)).workers = [WorkerPc.idle] ∧
      (exec scenarioProcess [Actor.producerDone]
        (initState 1 1 ["a.png"] { TotalFiles := 1 } true)).main = MainPc.waiting ∧
      ∀ a : Actor, step scenarioProcess
        (exec scenarioProcess [Actor.producerDone]
          (initState 1 1 ["a.png"] { TotalFiles := 1 } true)) a = none := by
  refine ⟨rfl, rfl, rfl, rfl, rfl, ?_⟩
  intro a
  cases a with
  | producer => rfl
  | producerDone => rfl
  | main => rfl
  | cancel => rfl
  | worker w =>
    cases w with
    | zero => rfl
    | succ w => rfl

end Avifconv

namespace Avifconv

/-! ## The configured queue size -/

theorem ParseConfig_eq_ok (cpu : Int) (statErr : String → Option String) (cl : CommandLine)
    (cfg : Config) (h : ParseConfig cpu statErr cl = .ok cfg) :
    cfg.QueueSize = wrapInt64 (cpu * QueueRatio) ∧ cfg.Workers = cl.workers.getD cpu := by
  unfold ParseConfig at h
  simp only at h
  split at h
  · cases h
  · split at h
    · cases h
    · split at h
      · cases h
      · split at h
        · cases h
        · cases h
          exact ⟨rfl, rfl⟩

/-- C8, the claim as stated fails: on a machine of 8 CPUs, `-workers 2` gives
a configuration with `Workers = 2` and `QueueSize = 24`, not `2 * 3`. -/
theorem C8_counterexample :
    ParseConfig 8 (fun _ => none) { workers := some 2, args := ["in"] } =
        .ok { InputPath := "in", Version := "dev", Workers := 2, Quality := 80,
              QualityAlpha := 80, Speed := 6, QueueSize := 24 } ∧
      (24 : Int) ≠ 2 * QueueRatio := by
  decide

/-- C8, amended. The queue size that `ParseConfig` configures is
`runtime.NumCPU() * QueueRatio` (`QueueRatio` is 3; as a Go `int` product),
whatever the value of the workers option; `NewProcessor` passes it on
unchanged. It equals the configured number of workers times `QueueRatio` when
`-workers` is absent, since the workers then default to the CPU count, or is
given as the CPU count. -/
theorem C8_queue_size_from_cpu (cpu : Int) (statErr : String → Option String)
    (cl : CommandLine) (cfg : Config) (h : ParseConfig cpu statErr cl = .ok cfg) :
    QueueRatio = 3 ∧ cfg.QueueSize = wrapInt64 (cpu * QueueRatio) ∧
      (NewProcessor cfg).QueueSize = cfg.QueueSize ∧
      (NewProcessor cfg).NumWorkers = cfg.Workers ∧
      (isInt64 (cpu * QueueRatio) → cfg.QueueSize = cpu * QueueRatio) ∧
      (isInt64 (cpu * QueueRatio) → cl.workers = none ∨ cl.workers = some cpu →
        cfg.QueueSize = cfg.Workers * QueueRatio) := by
  obtain ⟨hq, hw⟩ := ParseConfig_eq_ok cpu statErr cl cfg h
  refine ⟨rfl, hq, rfl, rfl, ?_, ?_⟩
  · intro hi
    rw [hq]
    exact wrapInt64_of_inRange _ hi.1 hi.2
  · intro hi hcl
    have hwc : cfg.Workers = cpu := by
      rw [hw]
      rcases hcl with hcl | hcl <;> rw [hcl] <;> rfl
    rw [hq, hwc]
    exact wrapInt64_of_inRange _ hi.1 hi.2

theorem C8_queue_size_from_cpu_witness :
    QueueRatio = 3 ∧ eightCpuConfig.QueueSize = wrapInt64 (8 * QueueRatio) ∧
      (NewProcessor eightCpuConfig).QueueSize = eightCpuConfig.QueueSize ∧
      (NewProcessor eightCpuConfig).NumWorkers = eightCpuConfig.Workers ∧
      eightCpuConfig.QueueSize = 8 * QueueRatio ∧
      eightCpuConfig.QueueSize = eightCpuConfig.Workers * QueueRatio :=
  have h := C8_queue_size_from_cpu 8 (fun _ => none) { args := ["in"] } eightCpuConfig
    (by decide)
  ⟨h.1, h.2.1, h.2.2.1, h.2.2.2.1,
    h.2.2.2.2.1 (by unfold isInt64 maxInt64 QueueRatio; omega),
    h.2.2.2.2.2 (by unfold isInt64 maxInt64 QueueRatio; omega) (Or.inl rfl)⟩

end Avifconv

namespace Avifconv

/-! ## The statistics in every state of a run -/

/-- In every state of every run of `processFilesParallel`, cancelled or not,
at most `len(files)` completions have been recorded. -/
theorem finished_length_le (process : Job → Outcome) (numWorkers : Nat) (files : List Job)
    (stats0 : ProcessStats) (s : PoolState) (hinv : Inv process numWorkers files stats0 s) :
    s.finished.length ≤ files.length := by
  have := congrArg Multiset.card hinv.conserve
  simp only [Multiset.card_add, Multiset.coe_card] at this
  omega

/-- The invariant of `ProcessStats` in the pool itself: in every state of
every run of `processFilesParallel` on `ProcessStats{TotalFiles: N}`, under
every schedule and with or without cancellation, `ProcessedFiles ==
SuccessfulFiles + FailedFiles` and `ProcessedFiles <= TotalFiles`. -/
theorem pool_stats_invariant (process : Job → Outcome) (p : Processor) (ctxDone : Bool)
    (files : List Job) (sched : List Actor) (s : PoolState)
    (hN : (files.length : Int) ≤ maxInt64)
    (h : processFilesParallel process p ctxDone files { TotalFiles := files.length } sched =
      .ok s) :
    s.stats.ProcessedFiles = s.stats.SuccessfulFiles + s.stats.FailedFiles ∧
      s.stats.ProcessedFiles ≤ s.stats.TotalFiles := by
  have hinv := processFilesParallel_inv process p ctxDone files _ sched s h
  have hlen := finished_length_le process _ files _ s hinv
  have hr : ProcessStats.inRange { TotalFiles := files.length } := by
    unfold ProcessStats.inRange isInt64 maxInt64; unfold maxInt64 at hN
    simp only []; omega
  have hsf := succCount_add_failCount (s.finished.map process)
  rw [List.length_map] at hsf
  rw [hinv.recorded, applyOutcomes_eq _ hr]
  simp only [zero_add, List.length_map]
  unfold maxInt64 at hN
  rw [wrapInt64_of_inRange, wrapInt64_of_inRange, wrapInt64_of_inRange] <;>
    first
      | (unfold maxInt64; omega)
      | omega

end Avifconv

namespace Avifconv

/-! ## `Config.validate` -/

/-- C13. `Config.validate` returns an error iff `Quality` is outside 0..100,
or `QualityAlpha` is outside 0..100, or `Speed` is outside 0..10; the first
range violated in that order gives the message; the result does not depend on
`Workers`, `QueueSize`, `InputPath` or `Version`; and the configuration
`ParseConfig` returns after the check carries the option values as they were
parsed. -/
theorem C13_validate (cfg : Config) :
    (cfg.validate ≠ none ↔
        (cfg.Quality < 0 ∨ cfg.Quality > 100) ∨
          (cfg.QualityAlpha < 0 ∨ cfg.QualityAlpha > 100) ∨
          (cfg.Speed < 0 ∨ cfg.Speed > 10)) ∧
      (cfg.Quality < 0 ∨ cfg.Quality > 100 →
        cfg.validate = some "error: quality must be in range 0-100") ∧
      (¬ (cfg.Quality < 0 ∨ cfg.Quality > 100) →
        cfg.QualityAlpha < 0 ∨ cfg.QualityAlpha > 100 →
        cfg.validate = some "error: alpha quality must be in range 0-100") ∧
      (¬ (cfg.Quality < 0 ∨ cfg.Quality > 100) →
        ¬ (cfg.QualityAlpha < 0 ∨ cfg.QualityAlpha > 100) →
        cfg.Speed < 0 ∨ cfg.Speed > 10 →
        cfg.validate = some "error: encoding speed must be in range 0-10") ∧
      (∀ (workers queue : Int) (path version : String),
        Config.validate { cfg with Workers := workers, QueueSize := queue,
                                   InputPath := path, Version := version } =
          cfg.validate) ∧
      (∀ (cpu : Int) (statErr : String → Option String) (cl : CommandLine),
        ParseConfig cpu statErr cl = .ok cfg →
          cfg.validate = none ∧ cfg.Quality = cl.quality.getD 80 ∧
            cfg.QualityAlpha = cl.qualityAlpha.getD 80 ∧ cfg.Speed = cl.speed.getD 6 ∧
            cfg.Workers = cl.workers.getD cpu) := by
  refine ⟨?_, ?_, ?_, ?_, ?_, ?_⟩
  · unfold Config.validate
    split
    · simp_all
    · split
      · simp_all
      · split
        · simp_all
        · simp_all
  · intro h
    simp [Config.validate, h]
  · intro h1 h2
    simp [Config.validate, h1, h2]
  · intro h1 h2 h3
    simp [Config.validate, h1, h2, h3]
  · intro workers queue path version
    rfl
  · intro cpu statErr cl h
    unfold ParseConfig at h
    simp only at h
    split at h
    · cases h
    · split at h
      · cases h
      · split at h
        · cases h
        · rename_i hv
          split at h
          · cases h
          · cases h
            exact ⟨hv, rfl, rfl, rfl, rfl⟩

theorem C13_validate_witness :
    Config.validate { Quality := 101, QualityAlpha := 200, Speed := 6, Workers := -4 } =
        some "error: quality must be in range 0-100" ∧
      Config.validate { Quality := 80, QualityAlpha := 200, Speed := 11 } =
        some "error: alpha quality must be in range 0-100" ∧
      Config.validate { Quality := 80, QualityAlpha := 80, Speed := 11, QueueSize := -1 } =
        some "error: encoding speed must be in range 0-10" :=
  ⟨(C13_validate { Quality := 101, QualityAlpha := 200, Speed := 6, Workers := -4 }).2.1
      (by decide),
    (C13_validate { Quality := 80, QualityAlpha := 200, Speed := 11 }).2.2.1
      (by decide) (by decide),
    (C13_validate { Quality := 80, QualityAlpha := 80, Speed := 11, QueueSize := -1 }).2.2.2.1
      (by decide) (by decide) (by decide)⟩

end Avifconv
